import Mathlib

/-!
Verification development for the kv_cache_saver snapshot lifecycle manager
(src/kv_cache_saver.py).  The Python string operations, the file-name
scheme, the glob matching used against the storage directory, and the
save/backup/rotate/restore-selection logic are shallowly embedded as
executable Lean functions over `List Char` file names and a file-system
state that records, for every file, its name, its modification time and
an abstraction of its content (files are never mutated in place, so a
content fingerprint stands for the content itself; the `.hash` sidecar
cache is modelled as always consistent with the file it describes).
-/

namespace KV

/-! ## Python character and digit primitives -/

/-- Decimal digit character for a value below ten (used to model Python
`str` of a nonnegative integer). -/
def digitChar : Nat → Char
  | 0 => '0' | 1 => '1' | 2 => '2' | 3 => '3' | 4 => '4'
  | 5 => '5' | 6 => '6' | 7 => '7' | 8 => '8' | 9 => '9'
  | _ => '?'

/-- Numeric value of an ASCII decimal digit, `none` for any other
character.  Models the per-character acceptance of Python `int` and
`str.isdigit` (restricted to ASCII, which is all the repository's names
use). -/
def charDigitVal (c : Char) : Option Nat :=
  if 48 ≤ c.toNat ∧ c.toNat ≤ 57 then some (c.toNat - 48) else none

/-- Boolean test for an ASCII decimal digit. -/
def digitB (c : Char) : Bool := (charDigitVal c).isSome

/-- Decimal digits of a natural number, fuel-driven so that the kernel
can evaluate it. -/
def natDigitsGo : Nat → Nat → List Char
  | 0, n => [digitChar n]
  | fuel + 1, n =>
    if n < 10 then [digitChar n]
    else natDigitsGo fuel (n / 10) ++ [digitChar (n % 10)]

/-- Decimal representation of a natural number, as Python `str` renders
a nonnegative `int`. -/
def natDigits (n : Nat) : List Char := natDigitsGo n n

/-- Decimal representation of an integer, as Python renders an `int`
inside an f-string. -/
def intChars (i : Int) : List Char :=
  if i < 0 then '-' :: natDigits i.natAbs else natDigits i.toNat

/-- Value of a digit string under the usual base-ten reading. -/
def digitsVal (l : List Char) : Nat :=
  l.foldl (fun a c => 10 * a + (charDigitVal c).getD 0) 0

/-- Python `str.isdigit`: nonempty and all digits. -/
def pyIsDigit (s : List Char) : Bool := !s.isEmpty && s.all digitB

/-- Python `str.strip()` restricted to whitespace. -/
def stripWs (s : List Char) : List Char :=
  ((s.dropWhile Char.isWhitespace).reverse.dropWhile Char.isWhitespace).reverse

/-- Python `int(s)`: optional surrounding whitespace, optional sign,
then decimal digits; any other shape raises `ValueError`, modelled as
`none`.  (Python additionally accepts `_` separators between digits;
no call site in this program can receive one, since every argument has
been split on `_` first.) -/
def pyInt (s : List Char) : Option Int :=
  match stripWs s with
  | [] => none
  | c :: ds =>
    if c = '-' then
      if !ds.isEmpty && ds.all digitB then some (-(digitsVal ds : Int)) else none
    else if c = '+' then
      if !ds.isEmpty && ds.all digitB then some ((digitsVal ds : Int)) else none
    else if (c :: ds).all digitB then some ((digitsVal (c :: ds) : Int)) else none

/-! ## Substring search, split and replace (Python `str.split`,
`str.replace`, `in`) -/

/-- Index of the first occurrence of `sep` in `s`, if any. -/
def findSub (sep : List Char) : List Char → Option Nat
  | [] => if sep.isEmpty then some 0 else none
  | c :: t =>
    if sep.isPrefixOf (c :: t) then some 0
    else (findSub sep t).map (· + 1)

/-- Python `sep in s` for strings. -/
def hasSub (sep s : List Char) : Bool := (findSub sep s).isSome

/-- Fuel-driven worker for `pySplit`. -/
def splitGo (sep : List Char) : Nat → List Char → List (List Char)
  | 0, s => [s]
  | fuel + 1, s =>
    match findSub sep s with
    | none => [s]
    | some i => s.take i :: splitGo sep fuel (s.drop (i + sep.length))

/-- Python `s.split(sep)` for a nonempty separator. -/
def pySplit (sep s : List Char) : List (List Char) := splitGo sep s.length s

/-- Python `s.split(sep, 1)`: split at the first occurrence only. -/
def pySplitOnce (sep s : List Char) : List (List Char) :=
  match findSub sep s with
  | none => [s]
  | some i => [s.take i, s.drop (i + sep.length)]

/-- Fuel-driven worker for `pyRemoveAll`. -/
def removeGo (pat : List Char) : Nat → List Char → List Char
  | 0, s => s
  | fuel + 1, s =>
    match findSub pat s with
    | none => s
    | some i => s.take i ++ removeGo pat fuel (s.drop (i + pat.length))

/-- Python `s.replace(pat, "")` for a nonempty pattern: delete every
non-overlapping occurrence, scanning left to right. -/
def pyRemoveAll (pat s : List Char) : List Char := removeGo pat s.length s

/-- Lexicographic (code-point) strict order on strings, as Python `<`
compares `str` values; `max` over timestamp keys uses it. -/
def pyStrLt : List Char → List Char → Bool
  | [], [] => false
  | [], _ :: _ => true
  | _ :: _, [] => false
  | a :: as, b :: bs =>
    if a.toNat < b.toNat then true
    else if b.toNat < a.toNat then false
    else pyStrLt as bs

/-- Python `max(keys)` over an iterable of strings (`none` on empty,
where Python raises; every call site guards for nonemptiness). -/
def pyMaxStr (l : List (List Char)) : Option (List Char) :=
  match l with
  | [] => none
  | k :: ks => some (ks.foldl (fun acc x => if pyStrLt acc x then x else acc) k)

/-! ## Glob matching.  The directory scans use `SAVE_DIR.glob(pattern)`
with patterns of the shape `{base}_slot*_*.bin`; only the `*` wildcard
occurs (theorems over arbitrary sessions carry the hypothesis that the
session text contains no further glob metacharacter, so treating every
non-`*` pattern character literally is faithful). -/

/-- Structural glob matcher: `*` matches any (possibly empty) run of
characters, every other pattern character matches itself, and the whole
pattern must consume the whole name. -/
def globMatch : List Char → List Char → Bool
  | [], n => n.isEmpty
  | c :: p, n =>
    if c = '*' then n.tails.any fun suf => globMatch p suf
    else
      match n with
      | [] => false
      | d :: n' => c = d && globMatch p n'

/-! ## Naming scheme (kv_cache_saver.py lines 35-60, 221-250, 783-787) -/

/-- Snapshot search pattern for a session: `f"{value}_slot*_*.bin"`
(set_base_name, line 42). -/
def cache_pattern (base : List Char) : List Char := base ++ "_slot*_*.bin".data

/-- Backup search pattern: `f"backup_{get_cache_pattern()}"`
(get_backup_pattern, lines 58-60). -/
def backup_pattern (base : List Char) : List Char := "backup_".data ++ cache_pattern base

/-- Snapshot file name produced by a save cycle:
`f"{get_base_name()}_slot{slot_id}_{timestamp}.bin"` (save_cache, line 787). -/
def mk_cache_name (base : List Char) (slot : Int) (ts : List Char) : List Char :=
  base ++ "_slot".data ++ intChars slot ++ '_' :: (ts ++ ".bin".data)

/-- Backup file name: `f"{name}_{cache_name}"` (create_backup_with_name,
line 865). -/
def mk_backup_name (label cacheName : List Char) : List Char :=
  label ++ '_' :: cacheName

/-- Sidecar name of the fingerprint record:
`file_path.with_suffix(file_path.suffix + ".hash")` appends `.hash` after
the `.bin` suffix (get_saved_hash / save_hash, lines 645, 656). -/
def sidecar_name (name : List Char) : List Char := name ++ ".hash".data

/-- Slot-id decoder (extract_slot_id_from_filename, lines 221-231):
split on `"_slot"`; with at least two parts, take the second part up to
its first `_` and parse it with `int`; a parse failure is caught and
yields `None`. -/
def extract_slot_id_from_filename (filename : List Char) : Option Int :=
  match pySplit "_slot".data filename with
  | _ :: p1 :: _ => pyInt ((pySplit "_".data p1).headD [])
  | _ => none

/-- Timestamp decoder (extract_timestamp_from_filename, lines 234-250):
split on `"_slot"`; with at least two parts, split the second part once
on `_`; with at least two pieces, delete every `".bin"` from the
remainder and accept it only if it is a 14-digit string. -/
def extract_timestamp_from_filename (filename : List Char) : Option (List Char) :=
  match pySplit "_slot".data filename with
  | _ :: p1 :: _ =>
    match pySplitOnce "_".data p1 with
    | _ :: after :: _ =>
      let ts := pyRemoveAll ".bin".data after
      if pyIsDigit ts && ts.length == 14 then some ts else none
    | _ => none
  | _ => none

/-! ## File-system state.  A file is its name, its modification time and
a fingerprint standing for its content (snapshot and backup files are
never mutated in place).  A state is the list of files in `SAVE_DIR`,
in directory-scan order. -/

structure FsFile where
  name : List Char
  mtime : Nat
  content : Nat
deriving DecidableEq, Repr

/-- Ascending modification-time order used by `rotate_*` (`files.sort
(key=mtime)`). -/
def leMt (a b : FsFile) : Prop := a.mtime ≤ b.mtime

/-- Descending modification-time order used everywhere a "latest first"
listing is built (`sort(key=mtime, reverse=True)`). -/
def geMt (a b : FsFile) : Prop := b.mtime ≤ a.mtime

instance : DecidableRel leMt := fun a b => Nat.decLe a.mtime b.mtime
instance : DecidableRel geMt := fun a b => Nat.decLe b.mtime a.mtime
instance : IsTotal FsFile leMt := ⟨fun a b => Nat.le_total a.mtime b.mtime⟩
instance : IsTrans FsFile leMt := ⟨fun _ _ _ h h' => Nat.le_trans h h'⟩
instance : IsTotal FsFile geMt := ⟨fun a b => Nat.le_total b.mtime a.mtime⟩
instance : IsTrans FsFile geMt := ⟨fun _ _ _ h h' => Nat.le_trans h' h⟩

/-- Stable ascending sort by mtime (Python `list.sort` is stable, as is
insertion sort). -/
def sortAsc (l : List FsFile) : List FsFile := l.insertionSort leMt

/-- Stable descending sort by mtime (`reverse=True`). -/
def sortDesc (l : List FsFile) : List FsFile := l.insertionSort geMt

/-- Directory listing for a glob pattern, preserving scan order. -/
def globFiles (pattern : List Char) (fs : List FsFile) : List FsFile :=
  fs.filter fun f => globMatch pattern f.name

/-- Snapshot listing (get_cache_files, lines 210-218): glob the session
pattern, optionally keep only names containing `f"_slot{slot_id}_"`,
then sort newest first. -/
def get_cache_files (base : List Char) (slot : Option Int) (fs : List FsFile) :
    List FsFile :=
  let cf := globFiles (cache_pattern base) fs
  let cf :=
    match slot with
    | none => cf
    | some s => cf.filter fun f => hasSub ("_slot".data ++ intChars s ++ ['_']) f.name
  sortDesc cf

/-- Timestamp keys of the grouping dict built by load_cache /
get_slots_with_latest_timestamp / create_backup: parseable timestamps in
first-encounter order, deduplicated (Python dict insertion order). -/
def groupKeys (files : List FsFile) : List (List Char) :=
  (files.filterMap fun f => extract_timestamp_from_filename f.name).foldl
    (fun acc t => if t ∈ acc then acc else acc ++ [t]) []

/-- Files of one timestamp group. -/
def groupFiles (files : List FsFile) (ts : List Char) : List FsFile :=
  files.filter fun f => extract_timestamp_from_filename f.name == some ts

/-- Non-interactive restore selection (load_cache with
`interactive=False`, lines 414-447): list the session's snapshot files,
group them by encoded timestamp, and pick the group of
`max(timestamp_groups.keys())`; `none` when there is no snapshot file or
no parseable timestamp.  Backup files are never consulted on this path. -/
def load_cache_auto (base : List Char) (fs : List FsFile) :
    Option (List Char × List FsFile) :=
  let cfs := get_cache_files base none fs
  if cfs.isEmpty then none
  else
    match pyMaxStr (groupKeys cfs) with
    | none => none
    | some ts => some (ts, groupFiles cfs ts)

/-- Overall result of the non-interactive load (lines 456-468): one
restore call per file of the chosen group whose name yields a slot id,
success iff at least one call succeeded. -/
def load_cache_auto_result (base : List Char) (restoreOk : FsFile → Bool)
    (fs : List FsFile) : Bool :=
  match load_cache_auto base fs with
  | none => false
  | some (_, files) =>
    0 < (files.filter fun f =>
      (extract_slot_id_from_filename f.name).isSome && restoreOk f).length

/-! ## Retention / rotation (rotate_cache_files lines 573-586,
rotate_backups lines 759-772).  Python `files[:-MAX]` is empty when
`MAX == 0`, which the slice below reproduces.  Deleting a file also
deletes its `.hash` sidecar.  The result is the remaining state paired
with the list of deleted (pattern-matching) files. -/

def rotate_files (pattern : List Char) (maxCount : Nat) (fs : List FsFile) :
    List FsFile × List FsFile :=
  let matching := globFiles pattern fs
  if matching.length ≤ maxCount then (fs, [])
  else
    let sorted := sortAsc matching
    let toDel := if maxCount = 0 then [] else sorted.take (sorted.length - maxCount)
    let delNames := toDel.map FsFile.name
    let sideNames := toDel.map fun f => sidecar_name f.name
    (fs.filter fun f => !(delNames.contains f.name) && !(sideNames.contains f.name),
      toDel)

/-- Snapshot rotation against `MAX_FILES`. -/
def rotate_cache_files (base : List Char) (maxFiles : Nat) (fs : List FsFile) :
    List FsFile × List FsFile :=
  rotate_files (cache_pattern base) maxFiles fs

/-- Backup rotation against `MAX_BACKUPS`. -/
def rotate_backups (base : List Char) (maxBackups : Nat) (fs : List FsFile) :
    List FsFile × List FsFile :=
  rotate_files (backup_pattern base) maxBackups fs

/-! ## Slot discovery (is_cache_valid lines 693-713,
get_all_slots_with_data lines 716-756).  The remote server's answers are
data of the model: a per-slot status answer, and one answer to the bulk
`/slots` query. -/

/-- Status-query payload for one slot: the two counters, each possibly
absent (Python `.get(key, 0)`). -/
structure SlotInfo where
  nCtxUsed : Option Int
  nPromptTokens : Option Int
deriving DecidableEq

/-- Validity check (is_cache_valid): an unreachable or non-200 status
query yields `none` from get_slot_info and is treated as not valid;
otherwise the slot is valid iff either counter is positive. -/
def is_cache_valid (info : Option SlotInfo) : Bool :=
  match info with
  | none => false
  | some i => 0 < i.nCtxUsed.getD 0 || 0 < i.nPromptTokens.getD 0

/-- One element of the bulk `/slots` listing: a JSON object with an
integer `id`, an object without one (or with a non-integer one), a bare
integer, or anything else. -/
inductive SlotsEntry where
  | objWithId (i : Int)
  | objNoId
  | intId (i : Int)
  | other
deriving DecidableEq

/-- Answer to the bulk `/slots` query: HTTP 200 with a JSON list, HTTP
200 with a JSON object keyed by slot-number strings, HTTP 200 with any
other JSON shape, a non-200 status, or a raised exception. -/
inductive SlotsResponse where
  | okList (entries : List SlotsEntry)
  | okDict (keys : List (List Char))
  | okOther
  | non200
  | exn
deriving DecidableEq

/-- Candidate ids a bulk answer contributes before the validity check. -/
def bulkCandidates : SlotsResponse → List Int
  | .okList es =>
    es.filterMap fun e =>
      match e with
      | .objWithId i => some i
      | .intId i => some i
      | _ => none
  | .okDict keys => keys.filterMap pyInt
  | _ => []

/-- Python `sorted` on integers. -/
def sortInts (l : List Int) : List Int := l.insertionSort (· ≤ ·)

/-- Slot discovery (get_all_slots_with_data): on an HTTP 200 bulk
answer, keep the listed ids that pass the validity check (a 200 answer
of unusable shape yields the empty listing); on a non-200 status or an
exception, fall back to probing slots `0 .. maxSlotsToCheck-1`
individually.  Either way the result is sorted ascending. -/
def get_all_slots_with_data (resp : SlotsResponse) (valid : Int → Bool)
    (maxSlotsToCheck : Nat) : List Int :=
  match resp with
  | .okList es => sortInts (((bulkCandidates (.okList es))).filter valid)
  | .okDict keys => sortInts (((bulkCandidates (.okDict keys))).filter valid)
  | .okOther => sortInts []
  | _ => sortInts (((List.range maxSlotsToCheck).map Int.ofNat).filter valid)

/-! ## Save cycle (save_cache, lines 775-813).  The remote call for one
slot either raises, or returns an HTTP status; independently the
expected file does or does not exist on disk after the call.  A created
file's size/content and mtime come from the server, modelled as
per-slot parameters. -/

/-- Outcome of the save call for one slot. -/
structure SlotSaveOutcome where
  raises : Bool
  status : Nat
  created : Bool
deriving DecidableEq

/-- A slot's save counts as succeeded: no exception, HTTP 200, and the
file is present on disk afterwards (lines 793-805). -/
def save_slot_ok (o : SlotSaveOutcome) : Bool :=
  !o.raises && o.status == 200 && o.created

/-- Result of a save cycle. -/
structure SaveResult where
  fs : List FsFile
  successCount : Nat
  rotationRan : Bool
  returned : Bool
deriving Repr

/-- The per-slot loop of save_cache: try every discovered slot in turn;
an exception, a non-200 status, or a missing file is logged and skipped
(`continue`), never aborting the remaining slots.  The state grows by
the file the server materialised, when it did. -/
def save_slots_loop (base : List Char) (ts : List Char)
    (outcome : Int → SlotSaveOutcome) (newMt newCt : Int → Nat) :
    List Int → List FsFile → Nat → List FsFile × Nat
  | [], fs, cnt => (fs, cnt)
  | s :: rest, fs, cnt =>
    let o := outcome s
    let fs' :=
      if o.created then
        fs ++ [⟨mk_cache_name base s ts, newMt s, newCt s⟩]
      else fs
    let cnt' := if save_slot_ok o then cnt + 1 else cnt
    save_slots_loop base ts outcome newMt newCt rest fs' cnt'

/-- Save cycle: with no discovered slot, return `False` without touching
anything; otherwise attempt every slot under the one shared timestamp,
then run snapshot rotation once — but only when at least one slot
succeeded — and report success iff at least one slot succeeded. -/
def save_cache (base ts : List Char) (maxFiles : Nat) (slots : List Int)
    (outcome : Int → SlotSaveOutcome) (newMt newCt : Int → Nat)
    (fs : List FsFile) : SaveResult :=
  if slots.isEmpty then ⟨fs, 0, false, false⟩
  else
    let (fs1, cnt) := save_slots_loop base ts outcome newMt newCt slots fs 0
    if 0 < cnt then
      ⟨(rotate_cache_files base maxFiles fs1).1, cnt, true, true⟩
    else ⟨fs1, cnt, false, false⟩

/-! ## Backup cycle (get_slots_with_latest_timestamp lines 597-629,
get_cache_file_for_timestamp lines 816-823, create_backup_with_name
lines 826-886, create_backup lines 889-951).  `shutil.copy2` copies the
content and preserves the modification time.  The fingerprint sidecar
cache is modelled as consistent, so `get_file_hash_cached` is the
content field. -/

/-- Slots that own a snapshot with the newest encoded timestamp:
group the session's snapshots by timestamp, take the group of the
maximal key, extract its slot ids, and return `sorted(list(set(..)))`. -/
def get_slots_with_latest_timestamp (base : List Char) (fs : List FsFile) :
    List Int :=
  let cfs := get_cache_files base none fs
  if cfs.isEmpty then []
  else
    match pyMaxStr (groupKeys cfs) with
    | none => []
    | some latest =>
      sortInts ((groupFiles cfs latest).filterMap fun f =>
        extract_slot_id_from_filename f.name).dedup

/-- First snapshot of the given slot carrying the given timestamp, in
newest-first order (get_cache_file_for_timestamp). -/
def get_cache_file_for_timestamp (base : List Char) (slot : Int)
    (ts : List Char) (fs : List FsFile) : Option FsFile :=
  (get_cache_files base (some slot) fs).find? fun f =>
    extract_timestamp_from_filename f.name == some ts

/-- Named backup creation (create_backup_with_name): for every slot of
the latest snapshot group, copy that slot's latest-timestamp snapshot to
`{label}_{cache_name}` (overwriting any file of that name), preserving
content and mtime; per-slot failures are skipped.  No change check and
no rotation happen here. -/
def create_backup_with_name (base label : List Char) (fs : List FsFile) :
    List FsFile × Bool :=
  let slots := get_slots_with_latest_timestamp base fs
  if slots.isEmpty then (fs, false)
  else
    let cfs := get_cache_files base none fs
    match pyMaxStr (groupKeys cfs) with
    | none => (fs, false)
    | some latest =>
      let step := fun (st : List FsFile × Nat) (s : Int) =>
        match get_cache_file_for_timestamp base s latest st.1 with
        | none => st
        | some cf =>
          let bn := mk_backup_name label cf.name
          ((st.1.filter fun g => g.name ≠ bn) ++ [⟨bn, cf.mtime, cf.content⟩],
            st.2 + 1)
      let res := slots.foldl step (fs, 0)
      (res.1, 0 < res.2)

/-- Newest existing backup for a slot: backup-pattern files whose name
contains `f"_slot{slot_id}_"`, newest first (create_backup, lines
920-925). -/
def latest_backup_for_slot (base : List Char) (slot : Int)
    (fs : List FsFile) : Option FsFile :=
  let bfs := (globFiles (backup_pattern base) fs).filter fun f =>
    hasSub ("_slot".data ++ intChars slot ++ ['_']) f.name
  (sortDesc bfs).head?

/-- Change check for one slot of the latest group: no prior backup for
the slot counts as changed; otherwise changed iff the newest backup's
fingerprint differs from the snapshot's (lines 913-941). -/
def backup_changed_for_slot (base : List Char) (latest : List Char)
    (slot : Int) (fs : List FsFile) : Bool :=
  match get_cache_file_for_timestamp base slot latest fs with
  | none => false
  | some cf =>
    match latest_backup_for_slot base slot fs with
    | none => true
    | some lb => !(lb.content == cf.content)

/-- Default backup cycle (create_backup): no-op without a latest group;
otherwise copy the whole latest group iff at least one of its slots
changed, and run backup rotation once after a successful copy. -/
def create_backup (base : List Char) (maxBackups : Nat) (fs : List FsFile) :
    List FsFile × Bool :=
  let slots := get_slots_with_latest_timestamp base fs
  if slots.isEmpty then (fs, false)
  else
    let cfs := get_cache_files base none fs
    match pyMaxStr (groupKeys cfs) with
    | none => (fs, false)
    | some latest =>
      if slots.any (fun s => backup_changed_for_slot base latest s fs) then
        match create_backup_with_name base "backup".data fs with
        | (fs1, true) => ((rotate_backups base maxBackups fs1).1, true)
        | (fs1, false) => (fs1, false)
      else (fs, false)

/-- Restore candidates enumerated for the session by the interactive
selector (load_cache_interactive, lines 480-520): the session's
snapshot-pattern files and its backup-pattern files. -/
def restore_candidate_files (base : List Char) (fs : List FsFile) :
    List FsFile :=
  globFiles (cache_pattern base) fs ++ globFiles (backup_pattern base) fs

/-- Validation of an operator-supplied backup label (process_command,
lines 968-970): letters, digits, underscores and dashes only. -/
def py_name_valid (name : List Char) : Bool :=
  name.all fun c => c.isAlphanum || c = '_' || c = '-'

/-! ## Control-loop shutdown machine (signal_handler lines 1004-1013,
main lines 1050-1083).  Events are delivered signals and loop ticks (a
tick may run a scheduled save, which creates some number of snapshot
files); after the loop observes `running = False` it performs the one
final save — unless a second signal already terminated the process. -/

structure LoopSt where
  sigCount : Nat
  running : Bool
  exited : Bool
  files : Nat
  finalSaves : Nat
deriving DecidableEq, Repr

/-- Initial loop state. -/
def loopInit : LoopSt := ⟨0, true, false, 0, 0⟩

/-- signal_handler: count the signal; a second signal calls
`sys.exit(0)` at once (no final save will run); a first one clears
`running`. -/
def handle_signal (s : LoopSt) : LoopSt :=
  if s.exited then s
  else if 2 ≤ s.sigCount + 1 then { s with sigCount := s.sigCount + 1, exited := true }
  else { s with sigCount := s.sigCount + 1, running := false }

/-- An event observed by the control loop. -/
inductive LoopEv where
  | sig
  | tick (doSave : Bool) (savedFiles : Nat)
deriving DecidableEq

/-- One event step: a tick only has an effect while the loop is still
running; a signal is handled whenever the process is alive. -/
def loop_step (s : LoopSt) (e : LoopEv) : LoopSt :=
  match e with
  | .sig => handle_signal s
  | .tick doSave k =>
    if s.exited || !s.running then s
    else if doSave then { s with files := s.files + k } else s

/-- Run the loop over a list of events. -/
def run_events (evs : List LoopEv) : LoopSt := evs.foldl loop_step loopInit

/-- After the while-loop ends, main performs the final save (creating
`k` files) — unless the process already exited through the second
signal. -/
def main_shutdown (k : Nat) (s : LoopSt) : LoopSt :=
  if s.exited then s
  else { s with finalSaves := s.finalSaves + 1, files := s.files + k }

/-- Whole-process run: loop over the events, then the shutdown path. -/
def kv_main (evs : List LoopEv) (k : Nat) : LoopSt :=
  main_shutdown k (run_events evs)

/-! ## Canonical session states, for the backup-cycle analysis (claim
C4).  A well-formed state consists of snapshot files named by the scheme
and backup files that are labelled copies; `Entry` describes one such
file. -/

structure Entry where
  slot : Nat
  ts : List Char
  mtime : Nat
  content : Nat
deriving DecidableEq, Repr

/-- Canonical snapshot name of an entry. -/
def snapName (sess : List Char) (e : Entry) : List Char :=
  mk_cache_name sess (Int.ofNat e.slot) e.ts

/-- Snapshot file of an entry. -/
def snapFile (sess : List Char) (e : Entry) : FsFile :=
  ⟨snapName sess e, e.mtime, e.content⟩

/-- Default-label backup file of an entry (a `copy2` copy preserves
mtime and content). -/
def bakFile (sess : List Char) (e : Entry) : FsFile :=
  ⟨"backup_".data ++ snapName sess e, e.mtime, e.content⟩

/-- A canonical state: the session's snapshots and its backups. -/
def canonFs (sess : List Char) (snaps baks : List Entry) : List FsFile :=
  snaps.map (snapFile sess) ++ baks.map (bakFile sess)

/-- Session hygiene required by the backup-cycle analysis. -/
def sessOk (sess : List Char) : Prop :=
  hasSub "_slot".data sess = false ∧
  "backup".data.isPrefixOf sess = false ∧
  "slot".data.isPrefixOf sess = false ∧
  '*' ∉ sess

instance (sess : List Char) : Decidable (sessOk sess) := by
  unfold sessOk
  infer_instance

/-- Timestamp hygiene of an entry. -/
def tsOk (e : Entry) : Prop := pyIsDigit e.ts = true ∧ e.ts.length = 14

instance (e : Entry) : Decidable (tsOk e) := by
  unfold tsOk
  infer_instance

/-- One iteration of the copy loop in create_backup_with_name (lines
856-880): fetch the slot's latest-group snapshot, name the copy
`{label}_{name}`, overwrite any file of that name, and count the
success. -/
def cbStep (base label latest : List Char) (st : List FsFile × Nat)
    (s : Int) : List FsFile × Nat :=
  match get_cache_file_for_timestamp base s latest st.1 with
  | none => st
  | some cf =>
    let bn := mk_backup_name label cf.name
    ((st.1.filter fun g => g.name ≠ bn) ++ [⟨bn, cf.mtime, cf.content⟩],
      st.2 + 1)

/-! ## Lemmas about digits and `pyInt` -/

theorem natDigitsGo_irrel : ∀ f1 f2 n : Nat, n ≤ f1 → n ≤ f2 →
    natDigitsGo f1 n = natDigitsGo f2 n := by
  intro f1
  induction f1 with
  | zero =>
    intro f2 n h1 _
    interval_cases n
    cases f2 <;> simp [natDigitsGo]
  | succ f ih =>
    intro f2 n h1 h2
    by_cases hn : n < 10
    · cases f2 <;> simp [natDigitsGo, hn]
    · have h10 : 10 ≤ n := by omega
      have hd : n / 10 < n := Nat.div_lt_self (by omega) (by omega)
      cases f2 with
      | zero => omega
      | succ f2' =>
        simp only [natDigitsGo, if_neg hn]
        rw [ih f2' (n / 10) (by omega) (by omega)]

theorem natDigits_lt10 {n : Nat} (h : n < 10) : natDigits n = [digitChar n] := by
  cases n with
  | zero => rfl
  | succ m => simp [natDigits, natDigitsGo, h]

theorem natDigits_ge10 {n : Nat} (h : 10 ≤ n) :
    natDigits n = natDigits (n / 10) ++ [digitChar (n % 10)] := by
  have hd : n / 10 < n := Nat.div_lt_self (by omega) (by omega)
  cases n with
  | zero => omega
  | succ m =>
    show natDigitsGo (m + 1) (m + 1) = _
    simp only [natDigitsGo, if_neg (by omega : ¬ m + 1 < 10)]
    rw [natDigitsGo_irrel m ((m+1)/10) ((m+1)/10) (by omega) (le_refl _)]
    rfl

theorem charDigitVal_digitChar {r : Nat} (h : r < 10) :
    charDigitVal (digitChar r) = some r := by
  interval_cases r <;> decide

theorem digitB_digitChar {r : Nat} (h : r < 10) : digitB (digitChar r) = true := by
  simp [digitB, charDigitVal_digitChar h]

theorem digitB_toNat {c : Char} (h : digitB c = true) :
    48 ≤ c.toNat ∧ c.toNat ≤ 57 := by
  by_contra hc
  simp [digitB, charDigitVal, hc] at h

theorem digitB_ne {c d : Char} (h : digitB c = true)
    (hd : d.toNat < 48 ∨ 57 < d.toNat) : c ≠ d := by
  intro e
  have := digitB_toNat h
  subst e
  omega

theorem mem_natDigits_digitB : ∀ n : Nat, ∀ c ∈ natDigits n, digitB c = true := by
  intro n
  induction n using Nat.strong_induction_on with
  | _ n ih =>
    intro c hc
    by_cases h : n < 10
    · rw [natDigits_lt10 h] at hc
      simp at hc
      subst hc
      exact digitB_digitChar h
    · rw [natDigits_ge10 (by omega)] at hc
      rcases List.mem_append.mp hc with h1 | h1
      · exact ih (n / 10) (Nat.div_lt_self (by omega) (by omega)) c h1
      · simp at h1
        subst h1
        exact digitB_digitChar (Nat.mod_lt _ (by omega))

theorem natDigits_ne_nil (n : Nat) : natDigits n ≠ [] := by
  by_cases h : n < 10
  · rw [natDigits_lt10 h]; simp
  · rw [natDigits_ge10 (by omega)]; simp

theorem digitsVal_append_digit (l : List Char) (c : Char) :
    digitsVal (l ++ [c]) = 10 * digitsVal l + (charDigitVal c).getD 0 := by
  simp [digitsVal, List.foldl_append]

theorem digitsVal_natDigits : ∀ n : Nat, digitsVal (natDigits n) = n := by
  intro n
  induction n using Nat.strong_induction_on with
  | _ n ih =>
    by_cases h : n < 10
    · rw [natDigits_lt10 h]
      simp [digitsVal, charDigitVal_digitChar h]
    · rw [natDigits_ge10 (by omega), digitsVal_append_digit,
        ih (n / 10) (Nat.div_lt_self (by omega) (by omega)),
        charDigitVal_digitChar (Nat.mod_lt _ (by omega))]
      simp
      omega

theorem natDigits_inj {m n : Nat} (h : natDigits m = natDigits n) : m = n := by
  have := digitsVal_natDigits m
  rw [h, digitsVal_natDigits] at this
  omega

theorem digitB_not_ws {c : Char} (h : digitB c = true) :
    c.isWhitespace = false := by
  have hb := digitB_toNat h
  by_contra hw
  simp only [Bool.not_eq_false] at hw
  simp only [Char.isWhitespace, Bool.or_eq_true, decide_eq_true_eq] at hw
  rcases hw with ((h1 | h1) | h1) | h1 <;> (subst h1; exact absurd hb (by decide))

theorem stripWs_of_not_ws {l : List Char} (h : ∀ c ∈ l, c.isWhitespace = false) :
    stripWs l = l := by
  have h1 : l.dropWhile Char.isWhitespace = l := by
    cases l with
    | nil => rfl
    | cons c t =>
      rw [List.dropWhile_cons_of_neg]
      simp [h c (by simp)]
  have h2 : l.reverse.dropWhile Char.isWhitespace = l.reverse := by
    cases hr : l.reverse with
    | nil => rfl
    | cons c t =>
      rw [List.dropWhile_cons_of_neg]
      have : c ∈ l := by
        have : c ∈ l.reverse := by rw [hr]; simp
        simpa using this
      simp [h c this]
  simp [stripWs, h1, h2]

theorem pyInt_of_digits {l : List Char} (hne : l ≠ [])
    (h : ∀ c ∈ l, digitB c = true) : pyInt l = some ((digitsVal l : Int)) := by
  unfold pyInt
  rw [stripWs_of_not_ws (fun c hc => digitB_not_ws (h c hc))]
  cases l with
  | nil => exact absurd rfl hne
  | cons c t =>
    have hc : digitB c = true := h c (by simp)
    have hcm : c ≠ '-' := digitB_ne hc (by decide)
    have hcp : c ≠ '+' := digitB_ne hc (by decide)
    simp only [if_neg hcm, if_neg hcp]
    rw [if_pos]
    simp only [List.all_eq_true]
    intro x hx
    exact h x hx

theorem pyInt_natDigits (n : Nat) : pyInt (natDigits n) = some (n : Int) := by
  rw [pyInt_of_digits (natDigits_ne_nil n) (mem_natDigits_digitB n),
    digitsVal_natDigits]

theorem intChars_ofNat (n : Nat) : intChars (Int.ofNat n) = natDigits n := by
  simp [intChars]

theorem mem_intChars_not_uscore {i : Int} : ∀ c ∈ intChars i, c ≠ '_' := by
  intro c hc
  unfold intChars at hc
  split at hc
  · rcases List.mem_cons.mp hc with h | h
    · subst h; decide
    · exact digitB_ne (mem_natDigits_digitB _ c h) (by decide)
  · exact digitB_ne (mem_natDigits_digitB _ c hc) (by decide)

theorem mem_intChars_not_l {i : Int} : ∀ c ∈ intChars i, c ≠ 'l' := by
  intro c hc
  unfold intChars at hc
  split at hc
  · rcases List.mem_cons.mp hc with h | h
    · subst h; decide
    · exact digitB_ne (mem_natDigits_digitB _ c h) (by decide)
  · exact digitB_ne (mem_natDigits_digitB _ c hc) (by decide)

theorem pyInt_neg_digits {l : List Char} (hne : l ≠ [])
    (h : ∀ c ∈ l, digitB c = true) :
    pyInt ('-' :: l) = some (-(digitsVal l : Int)) := by
  have hws : ∀ x ∈ ('-' :: l), x.isWhitespace = false := by
    intro x hx
    rcases List.mem_cons.mp hx with h1 | h1
    · subst h1; decide
    · exact digitB_not_ws (h x h1)
  have hcond : (!l.isEmpty && l.all digitB) = true := by
    simp only [Bool.and_eq_true, List.all_eq_true]
    exact ⟨by simpa [List.isEmpty_iff] using hne, h⟩
  unfold pyInt
  rw [stripWs_of_not_ws hws]
  simp only [if_pos rfl, if_pos hcond, if_true, eq_self_iff_true]

theorem pyInt_intChars (i : Int) : pyInt (intChars i) = some i := by
  unfold intChars
  split
  · rename_i hneg
    rw [pyInt_neg_digits (natDigits_ne_nil _) (mem_natDigits_digitB _),
      digitsVal_natDigits]
    have : -((i.natAbs : Int)) = i := by omega
    rw [this]
  · rename_i hneg
    rw [pyInt_natDigits]
    have : ((i.toNat : Int)) = i := by omega
    rw [this]

/-! ## Lemmas about substring search, split and replace -/

theorem findSub_some {sep s : List Char} {i : Nat} (h : findSub sep s = some i) :
    sep.isPrefixOf (s.drop i) = true ∧ ∀ j < i, sep.isPrefixOf (s.drop j) = false := by
  induction s generalizing i with
  | nil =>
    unfold findSub at h
    split at h
    · rename_i he
      simp at h
      subst h
      constructor
      · rw [List.isEmpty_iff] at he
        subst he
        rfl
      · omega
    · simp at h
  | cons c t ih =>
    unfold findSub at h
    split at h
    · rename_i hp
      simp at h
      subst h
      exact ⟨hp, by omega⟩
    · rename_i hp
      simp only [Option.map_eq_some'] at h
      obtain ⟨i', hi', rfl⟩ := h
      obtain ⟨h1, h2⟩ := ih hi'
      refine ⟨h1, ?_⟩
      intro j hj
      cases j with
      | zero => simp only [List.drop_zero]; exact eq_false_of_ne_true hp
      | succ j' => exact h2 j' (by omega)

theorem findSub_none {sep s : List Char} (h : findSub sep s = none) :
    ∀ j, sep.isPrefixOf (s.drop j) = false := by
  induction s with
  | nil =>
    unfold findSub at h
    split at h
    · simp at h
    · rename_i he
      intro j
      simp only [List.drop_nil]
      rw [Bool.eq_false_iff]
      intro hp
      rw [List.isPrefixOf_iff_prefix] at hp
      rw [List.isEmpty_iff] at he
      exact he (List.prefix_nil.mp hp)
  | cons c t ih =>
    unfold findSub at h
    split at h
    · simp at h
    · rename_i hp
      simp only [Option.map_eq_none'] at h
      intro j
      cases j with
      | zero => simp only [List.drop_zero]; exact eq_false_of_ne_true hp
      | succ j' => exact ih h j'

theorem findSub_intro {sep s : List Char} {i : Nat}
    (h1 : sep.isPrefixOf (s.drop i) = true)
    (h2 : ∀ j < i, sep.isPrefixOf (s.drop j) = false) :
    findSub sep s = some i := by
  induction s generalizing i with
  | nil =>
    simp only [List.drop_nil] at h1
    have hsep : sep = [] := by
      rw [List.isPrefixOf_iff_prefix] at h1
      exact List.prefix_nil.mp h1
    subst hsep
    have hi : i = 0 := by
      by_contra hne
      have := h2 0 (by omega)
      simp at this
    subst hi
    rfl
  | cons c t ih =>
    cases i with
    | zero =>
      simp only [List.drop_zero] at h1
      unfold findSub
      rw [if_pos h1]
    | succ i' =>
      have h0 := h2 0 (by omega)
      simp only [List.drop_zero] at h0
      unfold findSub
      rw [if_neg (by simp [h0])]
      have : findSub sep t = some i' := by
        apply ih
        · simpa using h1
        · intro j hj
          have := h2 (j + 1) (by omega)
          simpa using this
      rw [this]
      rfl

theorem hasSub_iff {sep s : List Char} :
    hasSub sep s = true ↔ ∃ j, sep.isPrefixOf (s.drop j) = true := by
  constructor
  · intro h
    unfold hasSub at h
    cases hf : findSub sep s with
    | none => rw [hf] at h; simp at h
    | some i => exact ⟨i, (findSub_some hf).1⟩
  · rintro ⟨j, hj⟩
    unfold hasSub
    cases hf : findSub sep s with
    | none =>
      have := findSub_none hf j
      rw [hj] at this
      simp at this
    | some i => rfl

theorem hasSub_false {sep s : List Char} (h : hasSub sep s = false) :
    ∀ j, sep.isPrefixOf (s.drop j) = false := by
  intro j
  unfold hasSub at h
  cases hf : findSub sep s with
  | none => exact findSub_none hf j
  | some i => rw [hf] at h; simp at h

/-- A separator containing a character absent from the string never
occurs in it. -/
theorem findSub_none_of_not_mem {sep s : List Char} {c : Char} (hc : c ∈ sep)
    (h : ∀ x ∈ s, x ≠ c) : findSub sep s = none := by
  cases hf : findSub sep s with
  | none => rfl
  | some i =>
    exfalso
    have hp := (findSub_some hf).1
    rw [List.isPrefixOf_iff_prefix] at hp
    have : c ∈ s.drop i := hp.subset hc
    exact h c (List.mem_of_mem_drop this) rfl

theorem splitGo_of_none {sep s : List Char} (h : findSub sep s = none) :
    ∀ fuel, splitGo sep fuel s = [s] := by
  intro fuel
  cases fuel with
  | zero => rfl
  | succ f => unfold splitGo; rw [h]

/-- Length bound for an occurrence. -/
theorem findSub_le_length {sep s : List Char} {i : Nat}
    (h : findSub sep s = some i) (hsep : sep ≠ []) :
    i + sep.length ≤ s.length ∧ 1 ≤ sep.length := by
  have hp := (findSub_some h).1
  rw [List.isPrefixOf_iff_prefix] at hp
  have h1 := hp.length_le
  rw [List.length_drop] at h1
  have h2 : 1 ≤ sep.length := by
    cases sep with
    | nil => exact absurd rfl hsep
    | cons a b => simp
  have h3 : i ≤ s.length := by
    by_contra hgt
    rw [Nat.sub_eq_zero_of_le (by omega)] at h1
    omega
  exact ⟨by omega, h2⟩

/-- A single-occurrence split gives exactly two parts. -/
theorem pySplit_two {sep s : List Char} {i : Nat} (hsep : sep ≠ [])
    (h : findSub sep s = some i)
    (h2 : findSub sep (s.drop (i + sep.length)) = none) :
    pySplit sep s = [s.take i, s.drop (i + sep.length)] := by
  obtain ⟨hlen, hsl⟩ := findSub_le_length h hsep
  unfold pySplit
  cases hs : s.length with
  | zero =>
    exfalso
    omega
  | succ m =>
    unfold splitGo
    rw [h]
    dsimp only
    rw [splitGo_of_none h2]

/-- Head of a split when an occurrence exists. -/
theorem pySplit_headD {sep s : List Char} {i : Nat} (hsep : sep ≠ [])
    (h : findSub sep s = some i) :
    (pySplit sep s).headD [] = s.take i := by
  obtain ⟨hlen, hsl⟩ := findSub_le_length h hsep
  unfold pySplit
  cases hs : s.length with
  | zero => exfalso; omega
  | succ m =>
    unfold splitGo
    rw [h]
    dsimp only
    rfl

theorem removeGo_of_none {pat s : List Char} (h : findSub pat s = none) :
    ∀ fuel, removeGo pat fuel s = s := by
  intro fuel
  cases fuel with
  | zero => rfl
  | succ f => unfold removeGo; rw [h]

/-- A single-occurrence replace removes just that occurrence. -/
theorem pyRemoveAll_single {pat s : List Char} {i : Nat} (hpat : pat ≠ [])
    (h : findSub pat s = some i)
    (h2 : findSub pat (s.drop (i + pat.length)) = none) :
    pyRemoveAll pat s = s.take i ++ s.drop (i + pat.length) := by
  obtain ⟨hlen, hsl⟩ := findSub_le_length h hpat
  unfold pyRemoveAll
  cases hs : s.length with
  | zero => exfalso; omega
  | succ m =>
    unfold removeGo
    rw [h]
    dsimp only
    rw [removeGo_of_none h2]

/-! ## Occurrence-position lemmas for the concrete separators -/

/-- A separator whose first character is absent from `pre` first occurs
in `pre ++ post` exactly at the boundary, provided it heads `post`. -/
theorem findSub_boundary_single {c0 : Char} {sep' pre post : List Char}
    (hpre : ∀ x ∈ pre, x ≠ c0)
    (hpost : (c0 :: sep').isPrefixOf post = true) :
    findSub (c0 :: sep') (pre ++ post) = some pre.length := by
  apply findSub_intro
  · rw [List.drop_left]
    exact hpost
  · intro j hj
    by_contra hne
    rw [Bool.not_eq_false, List.isPrefixOf_iff_prefix] at hne
    rw [List.drop_append_eq_append_drop, Nat.sub_eq_zero_of_le (by omega),
      List.drop_zero] at hne
    have hdb : j < pre.length := hj
    rw [List.drop_eq_getElem_cons hdb] at hne
    rw [List.cons_append, List.cons_prefix_cons] at hne
    exact hpre (pre[j]) (List.getElem_mem hdb) hne.1.symm

/-- First occurrence of `"_slot"` in `sess ++ "_slot" ++ r` is at the
boundary, when `sess` does not contain it and `r` has no letter `l`
(`"_slot"` cannot straddle either junction: it does not overlap itself,
and any occurrence inside `r` would need an `l`). -/
theorem findSub_slot_boundary {sess r : List Char}
    (hs : hasSub "_slot".data sess = false) :
    findSub "_slot".data (sess ++ "_slot".data ++ r) = some sess.length := by
  apply findSub_intro
  · rw [List.append_assoc, List.drop_left, List.isPrefixOf_iff_prefix]
    exact List.prefix_append _ _
  · intro j hj
    by_contra hne
    rw [Bool.not_eq_false, List.isPrefixOf_iff_prefix] at hne
    rw [List.append_assoc, List.drop_append_eq_append_drop,
      Nat.sub_eq_zero_of_le (by omega), List.drop_zero] at hne
    set dj := sess.drop j with hdj
    have hlen : dj.length = sess.length - j := by rw [hdj, List.length_drop]
    by_cases hk : 5 ≤ dj.length
    · have h5 : ("_slot".data : List Char).length ≤ dj.length := hk
      rw [List.isPrefix_append_of_length h5] at hne
      have hb := List.isPrefixOf_iff_prefix.mpr hne
      have hf := hasSub_false hs j
      rw [hb] at hf
      exact absurd hf (by decide)
    · have h1 : 1 ≤ dj.length := by omega
      have htake := List.prefix_iff_eq_take.mp hne
      rw [show ("_slot".data : List Char).length = 5 from rfl,
        List.take_append_eq_append_take,
        List.take_of_length_le (by omega : dj.length ≤ 5),
        List.take_append_eq_append_take,
        show 5 - dj.length - ("_slot".data : List Char).length = 0 from by
          rw [show ("_slot".data : List Char).length = 5 from rfl]; omega,
        List.take_zero, List.append_nil] at htake
      have hdrop := congrArg (List.drop dj.length) htake
      rw [List.drop_left] at hdrop
      have hk4 : dj.length = 1 ∨ dj.length = 2 ∨ dj.length = 3 ∨ dj.length = 4 := by
        omega
      rcases hk4 with h | h | h | h <;>
        (rw [h] at hdrop; exact absurd hdrop (by decide))

/-- The backup prefix cannot host or straddle an occurrence of
`"_slot"`: if the session contains no `"_slot"` and does not begin with
`"slot"`, neither does `backup_` + session contain `"_slot"`. -/
theorem hasSub_slot_backup_aux {sess : List Char}
    (hs : hasSub "_slot".data sess = false)
    (hsl : "slot".data.isPrefixOf sess = false) :
    hasSub "_slot".data ("backup_".data ++ sess) = false := by
  rw [Bool.eq_false_iff]
  intro hcon
  rw [hasSub_iff] at hcon
  obtain ⟨j, hj⟩ := hcon
  rw [List.isPrefixOf_iff_prefix] at hj
  by_cases h7 : 7 ≤ j
  · rw [List.drop_append_eq_append_drop,
      List.drop_eq_nil_of_le (by simp; omega)] at hj
    simp only [List.nil_append] at hj
    have hb := List.isPrefixOf_iff_prefix.mpr hj
    have hf := hasSub_false hs (j - ("backup_".data : List Char).length)
    rw [hb] at hf
    exact absurd hf (by decide)
  · rw [List.drop_append_eq_append_drop,
      Nat.sub_eq_zero_of_le (by simp; omega), List.drop_zero] at hj
    interval_cases j
    · rw [show (("backup_".data : List Char)).drop 0 = 'b' :: "ackup_".data from rfl,
        List.cons_append, List.cons_prefix_cons] at hj
      exact absurd hj.1 (by decide)
    · rw [show (("backup_".data : List Char)).drop 1 = 'a' :: "ckup_".data from rfl,
        List.cons_append, List.cons_prefix_cons] at hj
      exact absurd hj.1 (by decide)
    · rw [show (("backup_".data : List Char)).drop 2 = 'c' :: "kup_".data from rfl,
        List.cons_append, List.cons_prefix_cons] at hj
      exact absurd hj.1 (by decide)
    · rw [show (("backup_".data : List Char)).drop 3 = 'k' :: "up_".data from rfl,
        List.cons_append, List.cons_prefix_cons] at hj
      exact absurd hj.1 (by decide)
    · rw [show (("backup_".data : List Char)).drop 4 = 'u' :: "p_".data from rfl,
        List.cons_append, List.cons_prefix_cons] at hj
      exact absurd hj.1 (by decide)
    · rw [show (("backup_".data : List Char)).drop 5 = 'p' :: "_".data from rfl,
        List.cons_append, List.cons_prefix_cons] at hj
      exact absurd hj.1 (by decide)
    · rw [show (("backup_".data : List Char)).drop 6 = ['_'] from rfl] at hj
      simp only [List.cons_append, List.nil_append,
        show ("_slot".data : List Char) = '_' :: "slot".data from rfl,
        List.cons_prefix_cons] at hj
      have hb := List.isPrefixOf_iff_prefix.mpr hj.2
      rw [hb] at hsl
      exact absurd hsl (by decide)

/-- Two digit strings followed by an underscore and aligned as prefixes
are equal. -/
theorem digits_pref_digits : ∀ {ds es u v : List Char},
    (∀ c ∈ ds, digitB c = true) → (∀ c ∈ es, digitB c = true) →
    (ds ++ '_' :: u) <+: (es ++ '_' :: v) → ds = es := by
  intro ds
  induction ds with
  | nil =>
    intro es u v _ he hp
    cases es with
    | nil => rfl
    | cons e es' =>
      simp only [List.nil_append, List.cons_append, List.cons_prefix_cons] at hp
      exact absurd hp.1.symm (digitB_ne (he e (by simp)) (by decide))
  | cons d ds' ih =>
    intro es u v hd he hp
    cases es with
    | nil =>
      simp only [List.cons_append, List.nil_append, List.cons_prefix_cons] at hp
      exact absurd hp.1 (digitB_ne (hd d (by simp)) (by decide))
    | cons e es' =>
      simp only [List.cons_append, List.cons_prefix_cons] at hp
      rw [hp.1]
      rw [ih (fun c hc => hd c (by simp [hc])) (fun c hc => he c (by simp [hc])) hp.2]

/-! ## Decoding the canonical snapshot name -/

/-- Re-associated shape of a snapshot name. -/
theorem mk_cache_name_eq (sess : List Char) (slot : Int) (ts : List Char) :
    mk_cache_name sess slot ts =
      sess ++ "_slot".data ++ (intChars slot ++ '_' :: (ts ++ ".bin".data)) := by
  simp [mk_cache_name, List.append_assoc]

/-- The part after `_slot` in a canonical name contains no `l`. -/
theorem tail_no_l {slot : Int} {ts : List Char} (hts : ∀ c ∈ ts, digitB c = true) :
    ∀ x ∈ intChars slot ++ '_' :: (ts ++ ".bin".data), x ≠ 'l' := by
  intro x hx
  rcases List.mem_append.mp hx with h | h
  · exact mem_intChars_not_l x h
  · rcases List.mem_cons.mp h with h1 | h1
    · subst h1; decide
    · rcases List.mem_append.mp h1 with h2 | h2
      · exact digitB_ne (hts x h2) (by decide)
      · rcases List.mem_cons.mp h2 with h3 | h3
        · subst h3; decide
        · rcases List.mem_cons.mp h3 with h4 | h4
          · subst h4; decide
          · rcases List.mem_cons.mp h4 with h5 | h5
            · subst h5; decide
            · simp only [List.mem_singleton] at h5
              subst h5; decide

/-- Splitting a canonical name on `"_slot"` yields the session and the
remainder. -/
theorem pySplit_mk_cache_name {sess : List Char} {slot : Int} {ts : List Char}
    (hs : hasSub "_slot".data sess = false)
    (hts : ∀ c ∈ ts, digitB c = true) :
    pySplit "_slot".data (mk_cache_name sess slot ts) =
      [sess, intChars slot ++ '_' :: (ts ++ ".bin".data)] := by
  have hfind : findSub "_slot".data
      (sess ++ "_slot".data ++ (intChars slot ++ '_' :: (ts ++ ".bin".data))) =
      some sess.length :=
    findSub_slot_boundary hs
  have hnone : findSub "_slot".data (intChars slot ++ '_' :: (ts ++ ".bin".data)) = none :=
    findSub_none_of_not_mem (by decide : 'l' ∈ "_slot".data) (tail_no_l hts)
  have h2 : findSub "_slot".data
      ((sess ++ "_slot".data ++ (intChars slot ++ '_' :: (ts ++ ".bin".data))).drop
        (sess.length + ("_slot".data : List Char).length)) = none := by
    rw [show sess.length + ("_slot".data : List Char).length =
      (sess ++ "_slot".data).length from by simp, List.drop_left]
    exact hnone
  rw [mk_cache_name_eq, pySplit_two (by decide) hfind h2]
  rw [show sess.length + ("_slot".data : List Char).length =
      (sess ++ "_slot".data).length from by simp, List.drop_left]
  congr 1
  rw [List.append_assoc, List.take_left]

/-- Decoding the slot id from a canonical name. -/
theorem extract_slot_mk {sess : List Char} {slot : Int} {ts : List Char}
    (hs : hasSub "_slot".data sess = false)
    (hts : ∀ c ∈ ts, digitB c = true) :
    extract_slot_id_from_filename (mk_cache_name sess slot ts) = some slot := by
  unfold extract_slot_id_from_filename
  rw [pySplit_mk_cache_name hs hts]
  have hfind : findSub "_".data (intChars slot ++ '_' :: (ts ++ ".bin".data)) =
      some (intChars slot).length := by
    apply findSub_boundary_single mem_intChars_not_uscore
    simp [List.isPrefixOf_iff_prefix, List.cons_prefix_cons]
  dsimp only
  rw [pySplit_headD (by decide) hfind, List.take_left]
  exact pyInt_intChars slot

/-- Decoding the timestamp from a canonical name. -/
theorem extract_ts_mk {sess : List Char} {slot : Int} {ts : List Char}
    (hs : hasSub "_slot".data sess = false)
    (hts : pyIsDigit ts = true) (hlen : ts.length = 14) :
    extract_timestamp_from_filename (mk_cache_name sess slot ts) = some ts := by
  have htsd : ∀ c ∈ ts, digitB c = true := by
    have := hts
    unfold pyIsDigit at this
    simp only [Bool.and_eq_true, List.all_eq_true] at this
    exact this.2
  unfold extract_timestamp_from_filename
  rw [pySplit_mk_cache_name hs htsd]
  have hfind : findSub "_".data (intChars slot ++ '_' :: (ts ++ ".bin".data)) =
      some (intChars slot).length := by
    apply findSub_boundary_single mem_intChars_not_uscore
    simp [List.isPrefixOf_iff_prefix, List.cons_prefix_cons]
  dsimp only
  unfold pySplitOnce
  rw [hfind]
  dsimp only
  have hdrop : (intChars slot ++ '_' :: (ts ++ ".bin".data)).drop
      ((intChars slot).length + ("_".data : List Char).length) = ts ++ ".bin".data := by
    rw [List.drop_append_eq_append_drop,
      List.drop_eq_nil_of_le (by simp),
      Nat.add_sub_cancel_left]
    simp
  rw [hdrop]
  have hrem : pyRemoveAll ".bin".data (ts ++ ".bin".data) = ts := by
    have hf : findSub ".bin".data (ts ++ ".bin".data) = some ts.length := by
      apply findSub_boundary_single
      · intro x hx
        exact digitB_ne (htsd x hx) (by decide)
      · decide
    have hafter : findSub ".bin".data
        ((ts ++ ".bin".data).drop (ts.length + (".bin".data : List Char).length)) =
        none := by
      rw [show ts.length + (".bin".data : List Char).length =
        (ts ++ ".bin".data).length from by simp]
      rw [List.drop_length]
      decide
    rw [pyRemoveAll_single (by decide) hf hafter, List.take_left]
    rw [show ts.length + (".bin".data : List Char).length =
      (ts ++ ".bin".data).length from by simp, List.drop_length, List.append_nil]
  rw [hrem]
  rw [if_pos]
  simp [hts, hlen]

/-! ## Glob-matching lemmas -/

theorem globMatch_nil_eq (n : List Char) : globMatch [] n = n.isEmpty := rfl

theorem globMatch_star_eq (p n : List Char) :
    globMatch ('*' :: p) n = n.tails.any fun suf => globMatch p suf := by
  simp [globMatch]

theorem globMatch_cons_nil {c : Char} {p : List Char} (hc : c ≠ '*') :
    globMatch (c :: p) [] = false := by
  simp [globMatch, hc]

theorem globMatch_cons_cons {c d : Char} {p n' : List Char} (hc : c ≠ '*') :
    globMatch (c :: p) (d :: n') = (decide (c = d) && globMatch p n') := by
  simp [globMatch, hc]

theorem globMatch_lit {p n : List Char} (h : ∀ c ∈ p, c ≠ '*') :
    globMatch p n = true ↔ p = n := by
  induction p generalizing n with
  | nil =>
    rw [globMatch_nil_eq]
    cases n <;> simp
  | cons c p ih =>
    cases n with
    | nil =>
      rw [globMatch_cons_nil (h c (by simp))]
      simp
    | cons d n' =>
      rw [globMatch_cons_cons (h c (by simp))]
      simp only [Bool.and_eq_true, decide_eq_true_eq, List.cons.injEq]
      rw [ih (fun x hx => h x (by simp [hx]))]

theorem globMatch_star {p n : List Char} :
    globMatch ('*' :: p) n = true ↔ ∃ s, s <:+ n ∧ globMatch p s = true := by
  rw [globMatch_star_eq, List.any_eq_true]
  constructor
  · rintro ⟨s, hs, hm⟩
    exact ⟨s, (List.mem_tails s n).mp hs, hm⟩
  · rintro ⟨s, hs, hm⟩
    exact ⟨s, (List.mem_tails s n).mpr hs, hm⟩

theorem globMatch_cons_lit {c : Char} {p n : List Char} (hc : c ≠ '*') :
    globMatch (c :: p) n = true ↔ ∃ n', n = c :: n' ∧ globMatch p n' = true := by
  cases n with
  | nil =>
    rw [globMatch_cons_nil hc]
    simp
  | cons d n' =>
    rw [globMatch_cons_cons hc]
    simp only [Bool.and_eq_true, decide_eq_true_eq, List.cons.injEq]
    constructor
    · rintro ⟨rfl, hm⟩; exact ⟨n', ⟨rfl, rfl⟩, hm⟩
    · rintro ⟨m, ⟨h1, h2⟩, hm⟩; subst h1; subst h2; exact ⟨rfl, hm⟩

theorem globMatch_append_lit {lit p n : List Char} (h : ∀ c ∈ lit, c ≠ '*') :
    globMatch (lit ++ p) (lit ++ n) = globMatch p n := by
  induction lit with
  | nil => simp
  | cons c l ih =>
    simp only [List.cons_append]
    rw [globMatch_cons_cons (h c (by simp))]
    simp [ih (fun x hx => h x (by simp [hx]))]

theorem globMatch_lit_pref {lit p m : List Char} (h : ∀ c ∈ lit, c ≠ '*')
    (hm : globMatch (lit ++ p) m = true) : lit <+: m := by
  induction lit generalizing m with
  | nil => exact List.nil_prefix
  | cons c l ih =>
    rw [List.cons_append] at hm
    obtain ⟨m', rfl, hm'⟩ := (globMatch_cons_lit (h c (by simp))).mp hm
    rw [List.cons_prefix_cons]
    exact ⟨rfl, ih (fun x hx => h x (by simp [hx])) hm'⟩

/-- The trailing `*_*.bin` of the session patterns matches exactly the
strings of the shape `a ++ "_" ++ b ++ ".bin"`. -/
theorem globMatch_tail_iff {n : List Char} :
    globMatch "*_*.bin".data n = true ↔
      ∃ a b, n = a ++ '_' :: (b ++ ".bin".data) := by
  rw [show ("*_*.bin".data : List Char) = '*' :: '_' :: '*' :: ".bin".data from rfl]
  rw [globMatch_star]
  constructor
  · rintro ⟨s, ⟨a, rfl⟩, hm⟩
    obtain ⟨s2, rfl, hm2⟩ := (globMatch_cons_lit (by decide)).mp hm
    rw [globMatch_star] at hm2
    obtain ⟨s3, ⟨b, rfl⟩, hm3⟩ := hm2
    rw [globMatch_lit (by decide)] at hm3
    exact ⟨a, b, by rw [← hm3]⟩
  · rintro ⟨a, b, rfl⟩
    refine ⟨'_' :: (b ++ ".bin".data), ⟨a, rfl⟩, ?_⟩
    rw [globMatch_cons_lit (by decide)]
    refine ⟨b ++ ".bin".data, rfl, ?_⟩
    rw [globMatch_star]
    exact ⟨".bin".data, ⟨b, rfl⟩, by rw [globMatch_lit (by decide)]⟩

/-- Decomposition of the snapshot pattern. -/
theorem cache_pattern_eq (base : List Char) :
    cache_pattern base = (base ++ "_slot".data) ++ "*_*.bin".data := by
  unfold cache_pattern
  rw [List.append_assoc]
  congr 1

/-- Decomposition of the backup pattern. -/
theorem backup_pattern_eq (base : List Char) :
    backup_pattern base = (("backup_".data ++ base) ++ "_slot".data) ++ "*_*.bin".data := by
  unfold backup_pattern
  rw [cache_pattern_eq, ← List.append_assoc, ← List.append_assoc]

/-- Characterisation of matching the snapshot pattern. -/
theorem globMatch_cache_iff {base n : List Char} (hstar : '*' ∉ base) :
    globMatch (cache_pattern base) n = true ↔
      ∃ a b, n = (base ++ "_slot".data) ++ (a ++ '_' :: (b ++ ".bin".data)) := by
  rw [cache_pattern_eq]
  have hlit : ∀ c ∈ base ++ "_slot".data, c ≠ '*' := by
    intro c hc
    rcases List.mem_append.mp hc with h | h
    · intro e; subst e; exact hstar h
    · intro e; subst e; revert h; decide
  constructor
  · intro hm
    have hp := globMatch_lit_pref hlit hm
    obtain ⟨rest, rfl⟩ := hp
    rw [globMatch_append_lit hlit] at hm
    obtain ⟨a, b, rfl⟩ := globMatch_tail_iff.mp hm
    exact ⟨a, b, rfl⟩
  · rintro ⟨a, b, rfl⟩
    rw [globMatch_append_lit hlit, globMatch_tail_iff]
    exact ⟨a, b, rfl⟩

/-- Characterisation of matching the backup pattern. -/
theorem globMatch_backup_iff {base n : List Char} (hstar : '*' ∉ base) :
    globMatch (backup_pattern base) n = true ↔
      ∃ a b, n = (("backup_".data ++ base) ++ "_slot".data) ++
        (a ++ '_' :: (b ++ ".bin".data)) := by
  rw [backup_pattern_eq]
  have hlit : ∀ c ∈ ("backup_".data ++ base) ++ "_slot".data, c ≠ '*' := by
    intro c hc
    rcases List.mem_append.mp hc with h | h
    · rcases List.mem_append.mp h with h1 | h1
      · intro e; subst e; revert h1; decide
      · intro e; subst e; exact hstar h1
    · intro e; subst e; revert h; decide
  constructor
  · intro hm
    have hp := globMatch_lit_pref hlit hm
    obtain ⟨rest, rfl⟩ := hp
    rw [globMatch_append_lit hlit] at hm
    obtain ⟨a, b, rfl⟩ := globMatch_tail_iff.mp hm
    exact ⟨a, b, rfl⟩
  · rintro ⟨a, b, rfl⟩
    rw [globMatch_append_lit hlit, globMatch_tail_iff]
    exact ⟨a, b, rfl⟩

/-! ## Alignment lemmas: which names can begin with which pattern
literals -/

/-- Two underscore-free words ending at an underscore and aligned as
prefixes coincide. -/
theorem word_align_uscore : ∀ {w lab : List Char} {u v : List Char},
    (∀ c ∈ w, c ≠ '_') → (∀ c ∈ lab, c ≠ '_') →
    ((w ++ '_' :: u) <+: (lab ++ '_' :: v)) → w = lab := by
  intro w
  induction w with
  | nil =>
    intro lab u v _ hl hp
    cases lab with
    | nil => rfl
    | cons c l =>
      simp only [List.nil_append, List.cons_append, List.cons_prefix_cons] at hp
      exact absurd hp.1.symm (hl c (by simp))
  | cons a w' ih =>
    intro lab u v hw hl hp
    cases lab with
    | nil =>
      simp only [List.cons_append, List.nil_append, List.cons_prefix_cons] at hp
      exact absurd hp.1 (hw a (by simp))
    | cons c l =>
      simp only [List.cons_append, List.cons_prefix_cons] at hp
      rw [hp.1]
      rw [ih (fun x hx => hw x (by simp [hx])) (fun x hx => hl x (by simp [hx])) hp.2]

/-- A word ending at an underscore cannot be a prefix of an
underscore-free label's name unless the label extends into the word. -/
theorem no_align_left : ∀ {sess lab : List Char} {w y : List Char},
    (∀ c ∈ lab, c ≠ '_') → ¬ (lab <+: sess) →
    ¬ ((sess ++ '_' :: w) <+: (lab ++ '_' :: y)) := by
  intro sess
  induction sess with
  | nil =>
    intro lab w y hl hnp hp
    cases lab with
    | nil => exact hnp List.nil_prefix
    | cons c l =>
      simp only [List.nil_append, List.cons_append, List.cons_prefix_cons] at hp
      exact hl c (by simp) hp.1.symm
  | cons a ss ih =>
    intro lab w y hl hnp hp
    cases lab with
    | nil => exact hnp List.nil_prefix
    | cons c l =>
      simp only [List.cons_append, List.cons_prefix_cons] at hp
      obtain ⟨rfl, hp2⟩ := hp
      refine ih (fun x hx => hl x (by simp [hx])) ?_ hp2
      intro hls
      exact hnp (List.cons_prefix_cons.mpr ⟨rfl, hls⟩)

/-- An underscore-free word ending at an underscore cannot head a name
built from a session it does not begin. -/
theorem no_align_right : ∀ {w sess : List Char} {u v : List Char},
    (∀ c ∈ w, c ≠ '_') → ¬ (w <+: sess) →
    ¬ ((w ++ '_' :: u) <+: (sess ++ '_' :: v)) := by
  intro w
  induction w with
  | nil => intro sess u v _ hnp _; exact hnp List.nil_prefix
  | cons a w' ih =>
    intro sess u v hw hnp hp
    cases sess with
    | nil =>
      simp only [List.cons_append, List.nil_append, List.cons_prefix_cons] at hp
      exact hw a (by simp) hp.1
    | cons c ss =>
      simp only [List.cons_append, List.cons_prefix_cons] at hp
      obtain ⟨rfl, hp2⟩ := hp
      refine ih (fun x hx => hw x (by simp [hx])) ?_ hp2
      intro hls
      exact hnp (List.cons_prefix_cons.mpr ⟨rfl, hls⟩)

/-! ## Total order facts for the Python string comparison -/

theorem char_eq_of_toNat {c d : Char} (h : c.toNat = d.toNat) : c = d := by
  apply Char.ext
  apply UInt32.ext
  exact h

theorem pyStrLt_irrefl : ∀ l : List Char, pyStrLt l l = false := by
  intro l
  induction l with
  | nil => rfl
  | cons c t ih => simp [pyStrLt, ih]

theorem pyStrLt_trans : ∀ {a b c : List Char}, pyStrLt a b = true →
    pyStrLt b c = true → pyStrLt a c = true := by
  intro a
  induction a with
  | nil =>
    intro b c hab hbc
    cases b with
    | nil => simp [pyStrLt] at hab
    | cons y ys =>
      cases c with
      | nil => simp [pyStrLt] at hbc
      | cons z zs => rfl
  | cons x xs ih =>
    intro b c hab hbc
    cases b with
    | nil => simp [pyStrLt] at hab
    | cons y ys =>
      cases c with
      | nil => simp [pyStrLt] at hbc
      | cons z zs =>
        simp only [pyStrLt] at hab hbc ⊢
        split_ifs at hab hbc ⊢ with h1 h2 h3 h4 h5 h6 <;>
          first
          | rfl
          | omega
          | (exact ih hab hbc)

theorem pyStrLt_trichotomy : ∀ a b : List Char,
    a = b ∨ pyStrLt a b = true ∨ pyStrLt b a = true := by
  intro a
  induction a with
  | nil =>
    intro b
    cases b with
    | nil => exact Or.inl rfl
    | cons y ys => exact Or.inr (Or.inl rfl)
  | cons x xs ih =>
    intro b
    cases b with
    | nil => exact Or.inr (Or.inr rfl)
    | cons y ys =>
      by_cases h1 : x.toNat < y.toNat
      · exact Or.inr (Or.inl (by simp [pyStrLt, h1]))
      · by_cases h2 : y.toNat < x.toNat
        · exact Or.inr (Or.inr (by simp [pyStrLt, h2]))
        · have hxy : x = y := char_eq_of_toNat (by omega)
          subst hxy
          rcases ih ys with h | h | h
          · exact Or.inl (by rw [h])
          · exact Or.inr (Or.inl (by simp [pyStrLt, h]))
          · exact Or.inr (Or.inr (by simp [pyStrLt, h]))

theorem pyStrLt_asymm {a b : List Char} (h : pyStrLt a b = true) :
    pyStrLt b a = false := by
  by_contra hc
  rw [Bool.not_eq_false] at hc
  have := pyStrLt_trans h hc
  rw [pyStrLt_irrefl] at this
  simp at this

/-- The fold inside `pyMaxStr` returns a maximal element. -/
theorem pyMaxStr_spec : ∀ {l : List (List Char)} {m : List Char},
    pyMaxStr l = some m → m ∈ l ∧ ∀ x ∈ l, pyStrLt m x = false := by
  intro l m h
  match l with
  | [] => simp [pyMaxStr] at h
  | k :: ks =>
    simp only [pyMaxStr, Option.some.injEq] at h
    subst h
    suffices hgen : ∀ (ks : List (List Char)) (acc : List Char),
        (ks.foldl (fun acc x => if pyStrLt acc x then x else acc) acc = acc ∨
          ks.foldl (fun acc x => if pyStrLt acc x then x else acc) acc ∈ ks) ∧
        pyStrLt (ks.foldl (fun acc x => if pyStrLt acc x then x else acc) acc) acc
          = false ∧
        ∀ y ∈ ks, pyStrLt (ks.foldl (fun acc x => if pyStrLt acc x then x else acc) acc) y
          = false by
      obtain ⟨h1, h2, h3⟩ := hgen ks k
      constructor
      · rcases h1 with h | h
        · rw [h]; simp
        · exact List.mem_cons_of_mem _ h
      · intro x hx
        rcases List.mem_cons.mp hx with h | h
        · rw [h]; exact h2
        · exact h3 x h
    intro ks
    induction ks with
    | nil => intro acc; exact ⟨Or.inl rfl, pyStrLt_irrefl acc, by simp⟩
    | cons x ks ih =>
      intro acc
      simp only [List.foldl_cons]
      obtain ⟨h1, h2, h3⟩ := ih (if pyStrLt acc x then x else acc)
      by_cases hax : pyStrLt acc x = true
      · rw [if_pos hax] at h1 h2 h3 ⊢
        refine ⟨?_, ?_, ?_⟩
        · rcases h1 with h | h
          · exact Or.inr (by rw [h]; simp)
          · exact Or.inr (List.mem_cons_of_mem _ h)
        · by_contra hcon
          rw [Bool.not_eq_false] at hcon
          have := pyStrLt_trans hcon hax
          rw [h2] at this
          simp at this
        · intro y hy
          rcases List.mem_cons.mp hy with h | h
          · rw [h]; exact h2
          · exact h3 y h
      · rw [if_neg hax] at h1 h2 h3 ⊢
        rw [Bool.not_eq_true] at hax
        refine ⟨?_, h2, ?_⟩
        · rcases h1 with h | h
          · exact Or.inl h
          · exact Or.inr (List.mem_cons_of_mem _ h)
        · intro y hy
          rcases List.mem_cons.mp hy with h | h
          · subst h
            by_contra hcon
            rw [Bool.not_eq_false] at hcon
            rcases pyStrLt_trichotomy acc
                (ks.foldl (fun acc x => if pyStrLt acc x then x else acc) acc) with
              he | hlt | hlt
            · rw [← he] at hcon
              rw [hcon] at hax
              simp at hax
            · have htr := pyStrLt_trans hlt hcon
              rw [htr] at hax
              simp at hax
            · rw [hlt] at h2
              simp at h2
          · exact h3 y h

/-- The maximum is determined by membership and upper-boundedness. -/
theorem pyMaxStr_eq_of_max {l : List (List Char)} {m : List Char}
    (hmem : m ∈ l) (hub : ∀ x ∈ l, pyStrLt m x = false) :
    pyMaxStr l = some m := by
  cases hl : pyMaxStr l with
  | none =>
    cases l with
    | nil => simp at hmem
    | cons k ks => simp [pyMaxStr] at hl
  | some m' =>
    obtain ⟨hmem', hub'⟩ := pyMaxStr_spec hl
    rcases pyStrLt_trichotomy m m' with he | hlt | hlt
    · rw [he]
    · rw [hub m' hmem'] at hlt; simp at hlt
    · rw [hub' m hmem] at hlt; simp at hlt

/-! ## Claim C1: losslessness of the name scheme -/

/-- Claim C1, counterexample: with the session identifier
`a_slot1` (which contains `"_slot"`), the encoded name for slot `0`
decodes to slot `1`, and its timestamp does not decode at all, so the
round-trip of the claim fails for this valid-looking triple. -/
theorem C1_counterexample :
    extract_slot_id_from_filename
        (mk_cache_name "a_slot1".data 0 "20240101000000".data) = some 1 ∧
    extract_slot_id_from_filename
        (mk_cache_name "a_slot1".data 0 "20240101000000".data) ≠ some 0 ∧
    extract_timestamp_from_filename
        (mk_cache_name "a_slot1".data 0 "20240101000000".data) = none := by
  refine ⟨by decide, by decide, by decide⟩

/-- Claim C1 (amended): for every session identifier that does not
contain the substring `"_slot"`, every integer slot id and every 14-digit
timestamp, decoding the encoded snapshot file name returns exactly the
slot and the timestamp. -/
theorem C1_roundtrip (sess : List Char) (slot : Int) (ts : List Char)
    (hs : hasSub "_slot".data sess = false)
    (hts : pyIsDigit ts = true) (hlen : ts.length = 14) :
    extract_slot_id_from_filename (mk_cache_name sess slot ts) = some slot ∧
    extract_timestamp_from_filename (mk_cache_name sess slot ts) = some ts := by
  have htsd : ∀ c ∈ ts, digitB c = true := by
    have h2 := hts
    unfold pyIsDigit at h2
    simp only [Bool.and_eq_true, List.all_eq_true] at h2
    exact h2.2
  exact ⟨extract_slot_mk hs htsd, extract_ts_mk hs hts hlen⟩

/-- Concrete instance of `C1_roundtrip`. -/
theorem C1_roundtrip_witness :
    hasSub "_slot".data "session".data = false ∧
    pyIsDigit "20250101120000".data = true ∧
    ("20250101120000".data : List Char).length = 14 ∧
    (extract_slot_id_from_filename
        (mk_cache_name "session".data 3 "20250101120000".data) = some 3 ∧
      extract_timestamp_from_filename
        (mk_cache_name "session".data 3 "20250101120000".data) =
          some "20250101120000".data) :=
  ⟨by decide, by decide, by decide,
    C1_roundtrip "session".data 3 "20250101120000".data (by decide) (by decide)
      (by decide)⟩

/-! ## Derived facts about listings and groupings -/

theorem mem_get_cache_files_none {base : List Char} {fs : List FsFile} {f : FsFile} :
    f ∈ get_cache_files base none fs ↔
      f ∈ fs ∧ globMatch (cache_pattern base) f.name = true := by
  unfold get_cache_files globFiles sortDesc
  rw [List.mem_insertionSort, List.mem_filter]

theorem mem_groupKeys {files : List FsFile} {t : List Char} :
    t ∈ groupKeys files ↔
      ∃ f ∈ files, extract_timestamp_from_filename f.name = some t := by
  unfold groupKeys
  have hfold : ∀ (l : List (List Char)) (acc : List (List Char)) (x : List Char),
      x ∈ l.foldl (fun acc t => if t ∈ acc then acc else acc ++ [t]) acc ↔
        x ∈ acc ∨ x ∈ l := by
    intro l
    induction l with
    | nil => intro acc x; simp
    | cons c cs ih =>
      intro acc x
      rw [List.foldl_cons, ih]
      by_cases hc : c ∈ acc
      · rw [if_pos hc]
        constructor
        · rintro (h | h)
          · exact Or.inl h
          · exact Or.inr (List.mem_cons_of_mem _ h)
        · rintro (h | h)
          · exact Or.inl h
          · rcases List.mem_cons.mp h with h1 | h1
            · subst h1; exact Or.inl hc
            · exact Or.inr h1
      · rw [if_neg hc]
        constructor
        · rintro (h | h)
          · rcases List.mem_append.mp h with h1 | h1
            · exact Or.inl h1
            · simp only [List.mem_singleton] at h1
              subst h1
              exact Or.inr (List.mem_cons_self _ _)
          · exact Or.inr (List.mem_cons_of_mem _ h)
        · rintro (h | h)
          · exact Or.inl (List.mem_append.mpr (Or.inl h))
          · rcases List.mem_cons.mp h with h1 | h1
            · subst h1
              exact Or.inl (List.mem_append.mpr (Or.inr (by simp)))
            · exact Or.inr h1
  rw [hfold, List.mem_filterMap]
  simp

theorem mem_groupFiles {files : List FsFile} {ts : List Char} {f : FsFile} :
    f ∈ groupFiles files ts ↔
      f ∈ files ∧ extract_timestamp_from_filename f.name = some ts := by
  unfold groupFiles
  rw [List.mem_filter]
  simp

/-- Every decoded timestamp is a 14-digit string (inversion of the
validation in extract_timestamp_from_filename). -/
theorem extract_ts_valid {n t : List Char}
    (h : extract_timestamp_from_filename n = some t) :
    pyIsDigit t = true ∧ t.length = 14 := by
  unfold extract_timestamp_from_filename at h
  split at h
  · split at h
    · dsimp only at h
      split at h
      · rename_i hcond
        simp only [Option.some.injEq] at h
        subst h
        simp only [Bool.and_eq_true, beq_iff_eq] at hcond
        exact ⟨hcond.1, by simpa using hcond.2⟩
      · simp at h
    · simp at h
  · simp at h

/-! ## Lexicographic order on equal-length digit strings is value order -/

theorem digitsVal_foldl (l : List Char) :
    ∀ a : Nat, l.foldl (fun a c => 10 * a + (charDigitVal c).getD 0) a =
      a * 10 ^ l.length + digitsVal l := by
  induction l with
  | nil => intro a; simp [digitsVal]
  | cons c t ih =>
    intro a
    rw [List.foldl_cons, ih]
    have h2 : digitsVal (c :: t) = (charDigitVal c).getD 0 * 10 ^ t.length
        + digitsVal t := by
      show List.foldl _ (10 * 0 + (charDigitVal c).getD 0) t = _
      rw [ih]
      ring_nf
    rw [h2]
    simp [List.length_cons]
    ring

theorem digitsVal_cons (c : Char) (t : List Char) :
    digitsVal (c :: t) =
      (charDigitVal c).getD 0 * 10 ^ t.length + digitsVal t := by
  show List.foldl _ (10 * 0 + (charDigitVal c).getD 0) t = _
  rw [digitsVal_foldl]
  ring_nf

theorem digitsVal_lt_pow {l : List Char} (h : ∀ c ∈ l, digitB c = true) :
    digitsVal l < 10 ^ l.length := by
  induction l with
  | nil => simp [digitsVal]
  | cons c t ih =>
    rw [digitsVal_cons]
    have hc : (charDigitVal c).getD 0 ≤ 9 := by
      have hb := digitB_toNat (h c (by simp))
      unfold charDigitVal
      rw [if_pos hb]
      simp
      omega
    have ht := ih (fun x hx => h x (by simp [hx]))
    rw [List.length_cons, pow_succ]
    calc (charDigitVal c).getD 0 * 10 ^ t.length + digitsVal t
        < (charDigitVal c).getD 0 * 10 ^ t.length + 10 ^ t.length := by omega
      _ = ((charDigitVal c).getD 0 + 1) * 10 ^ t.length := by ring
      _ ≤ 10 * 10 ^ t.length := by
          apply Nat.mul_le_mul_right
          omega
      _ = 10 ^ t.length * 10 := by ring

theorem digitsVal_lt_of_pyStrLt : ∀ {a b : List Char},
    a.length = b.length → (∀ c ∈ a, digitB c = true) → (∀ c ∈ b, digitB c = true) →
    pyStrLt a b = true → digitsVal a < digitsVal b := by
  intro a
  induction a with
  | nil =>
    intro b hlen _ _ hlt
    cases b with
    | nil => simp [pyStrLt] at hlt
    | cons y ys => simp at hlen
  | cons x xs ih =>
    intro b hlen ha hb hlt
    cases b with
    | nil => simp at hlen
    | cons y ys =>
      simp only [List.length_cons, Nat.succ.injEq] at hlen
      rw [digitsVal_cons, digitsVal_cons, hlen]
      simp only [pyStrLt] at hlt
      split_ifs at hlt with h1 h2
      · have hx := digitB_toNat (ha x (by simp))
        have hy := digitB_toNat (hb y (by simp))
        have hvx : (charDigitVal x).getD 0 = x.toNat - 48 := by
          unfold charDigitVal; rw [if_pos hx]; rfl
        have hvy : (charDigitVal y).getD 0 = y.toNat - 48 := by
          unfold charDigitVal; rw [if_pos hy]; rfl
        have hlt2 : (charDigitVal x).getD 0 < (charDigitVal y).getD 0 := by
          rw [hvx, hvy]; omega
        have hbound := digitsVal_lt_pow (fun c hc => ha c (List.mem_cons_of_mem _ hc))
        calc (charDigitVal x).getD 0 * 10 ^ ys.length + digitsVal xs
            < (charDigitVal x).getD 0 * 10 ^ ys.length + 10 ^ ys.length := by
              rw [← hlen]; omega
          _ = ((charDigitVal x).getD 0 + 1) * 10 ^ ys.length := by ring
          _ ≤ (charDigitVal y).getD 0 * 10 ^ ys.length := by
              apply Nat.mul_le_mul_right
              omega
          _ ≤ (charDigitVal y).getD 0 * 10 ^ ys.length + digitsVal ys := by omega
      · have hxy : x = y := char_eq_of_toNat (by omega)
        subst hxy
        have := ih hlen (fun c hc => ha c (List.mem_cons_of_mem _ hc))
          (fun c hc => hb c (List.mem_cons_of_mem _ hc)) hlt
        omega

/-! ## Claim C2: automatic restore selection -/

/-- Claim C2, counterexample: with no snapshot file but one backup file
on disk, the non-interactive restore path resolves to `none`
("nothing to restore") and performs no restore call — it does not fall
back to the newest backup group as the claim states. -/
theorem C2_counterexample :
    load_cache_auto "s".data
        [⟨"backup_s_slot0_20240101000000.bin".data, 5, 1⟩] = none ∧
    globFiles (backup_pattern "s".data)
        [⟨"backup_s_slot0_20240101000000.bin".data, 5, 1⟩] ≠ [] ∧
    load_cache_auto_result "s".data (fun _ => true)
        [⟨"backup_s_slot0_20240101000000.bin".data, 5, 1⟩] = false := by
  refine ⟨by decide, by decide, by decide⟩

/-- Claim C2 (amended): non-interactive restore selection considers only
snapshot-pattern files.  When none exists it resolves to "nothing to
restore" even if backup files exist; when at least one snapshot with a
parseable timestamp exists, it selects the group of the maximal
(lexicographically, equivalently numerically, newest) timestamp, and
that group consists exactly of the snapshot files carrying it. -/
theorem C2_auto_restore (base : List Char) (fs : List FsFile) :
    (globFiles (cache_pattern base) fs = [] →
      load_cache_auto base fs = none ∧
      ∀ rOk, load_cache_auto_result base rOk fs = false) ∧
    (∀ f ∈ fs, ∀ t : List Char,
      globMatch (cache_pattern base) f.name = true →
      extract_timestamp_from_filename f.name = some t →
      ∃ sel grp, load_cache_auto base fs = some (sel, grp) ∧
        pyStrLt sel t = false ∧ digitsVal t ≤ digitsVal sel ∧
        (∃ g ∈ fs, globMatch (cache_pattern base) g.name = true ∧
          extract_timestamp_from_filename g.name = some sel) ∧
        ∀ g : FsFile, g ∈ grp ↔
          g ∈ fs ∧ globMatch (cache_pattern base) g.name = true ∧
            extract_timestamp_from_filename g.name = some sel) := by
  constructor
  · intro h
    have hcfs : get_cache_files base none fs = [] := by
      unfold get_cache_files
      rw [h]
      rfl
    have hnone : load_cache_auto base fs = none := by
      unfold load_cache_auto
      rw [hcfs]
      rfl
    refine ⟨hnone, ?_⟩
    intro rOk
    unfold load_cache_auto_result
    rw [hnone]
  · intro f hf t hmatch hts
    have hfm : f ∈ get_cache_files base none fs :=
      mem_get_cache_files_none.mpr ⟨hf, hmatch⟩
    have hcne : get_cache_files base none fs ≠ [] := List.ne_nil_of_mem hfm
    have htk : t ∈ groupKeys (get_cache_files base none fs) :=
      mem_groupKeys.mpr ⟨f, hfm, hts⟩
    obtain ⟨sel, hmax⟩ : ∃ sel, pyMaxStr (groupKeys (get_cache_files base none fs))
        = some sel := by
      cases hk : groupKeys (get_cache_files base none fs) with
      | nil => rw [hk] at htk; simp at htk
      | cons a l => exact ⟨_, rfl⟩
    obtain ⟨hselmem, hub⟩ := pyMaxStr_spec hmax
    obtain ⟨g, hgm, hgts⟩ := mem_groupKeys.mp hselmem
    have hload : load_cache_auto base fs =
        some (sel, groupFiles (get_cache_files base none fs) sel) := by
      unfold load_cache_auto
      rw [if_neg (by rw [List.isEmpty_iff]; exact hcne), hmax]
    refine ⟨sel, _, hload, hub t htk, ?_, ?_, ?_⟩
    · obtain ⟨hd1, hl1⟩ := extract_ts_valid hts
      obtain ⟨hd2, hl2⟩ := extract_ts_valid hgts
      have htd : ∀ c ∈ t, digitB c = true := by
        have := hd1
        unfold pyIsDigit at this
        simp only [Bool.and_eq_true, List.all_eq_true] at this
        exact this.2
      have hsd : ∀ c ∈ sel, digitB c = true := by
        have := hd2
        unfold pyIsDigit at this
        simp only [Bool.and_eq_true, List.all_eq_true] at this
        exact this.2
      rcases pyStrLt_trichotomy sel t with he | hlt | hlt
      · rw [he]
      · rw [hub t htk] at hlt; simp at hlt
      · exact Nat.le_of_lt (digitsVal_lt_of_pyStrLt (by omega) htd hsd hlt)
    · obtain ⟨hg1, hg2⟩ := mem_get_cache_files_none.mp hgm
      exact ⟨g, hg1, hg2, hgts⟩
    · intro g2
      rw [mem_groupFiles, mem_get_cache_files_none, and_assoc]

/-- Concrete instance of `C2_auto_restore`: snapshot groups for slots
0, 1, 2 at one timestamp and slots 0, 2 one second later resolve to the
newer group with exactly the slot-0 and slot-2 files. -/
theorem C2_auto_restore_witness :
    (⟨mk_cache_name "s".data 0 "20240101000001".data, 4, 0⟩ : FsFile) ∈
      ([⟨mk_cache_name "s".data 0 "20240101000000".data, 1, 0⟩,
        ⟨mk_cache_name "s".data 1 "20240101000000".data, 2, 0⟩,
        ⟨mk_cache_name "s".data 2 "20240101000000".data, 3, 0⟩,
        ⟨mk_cache_name "s".data 0 "20240101000001".data, 4, 0⟩,
        ⟨mk_cache_name "s".data 2 "20240101000001".data, 5, 0⟩] : List FsFile) ∧
    (∃ sel grp, load_cache_auto "s".data
        [⟨mk_cache_name "s".data 0 "20240101000000".data, 1, 0⟩,
         ⟨mk_cache_name "s".data 1 "20240101000000".data, 2, 0⟩,
         ⟨mk_cache_name "s".data 2 "20240101000000".data, 3, 0⟩,
         ⟨mk_cache_name "s".data 0 "20240101000001".data, 4, 0⟩,
         ⟨mk_cache_name "s".data 2 "20240101000001".data, 5, 0⟩] =
        some (sel, grp) ∧
      pyStrLt sel "20240101000001".data = false ∧
      digitsVal "20240101000001".data ≤ digitsVal sel ∧
      (∃ g ∈ ([⟨mk_cache_name "s".data 0 "20240101000000".data, 1, 0⟩,
        ⟨mk_cache_name "s".data 1 "20240101000000".data, 2, 0⟩,
        ⟨mk_cache_name "s".data 2 "20240101000000".data, 3, 0⟩,
        ⟨mk_cache_name "s".data 0 "20240101000001".data, 4, 0⟩,
        ⟨mk_cache_name "s".data 2 "20240101000001".data, 5, 0⟩] : List FsFile),
        globMatch (cache_pattern "s".data) g.name = true ∧
          extract_timestamp_from_filename g.name = some sel) ∧
      ∀ g : FsFile, g ∈ grp ↔
        g ∈ ([⟨mk_cache_name "s".data 0 "20240101000000".data, 1, 0⟩,
          ⟨mk_cache_name "s".data 1 "20240101000000".data, 2, 0⟩,
          ⟨mk_cache_name "s".data 2 "20240101000000".data, 3, 0⟩,
          ⟨mk_cache_name "s".data 0 "20240101000001".data, 4, 0⟩,
          ⟨mk_cache_name "s".data 2 "20240101000001".data, 5, 0⟩] : List FsFile) ∧
          globMatch (cache_pattern "s".data) g.name = true ∧
            extract_timestamp_from_filename g.name = some sel) ∧
    load_cache_auto "s".data
        [⟨mk_cache_name "s".data 0 "20240101000000".data, 1, 0⟩,
         ⟨mk_cache_name "s".data 1 "20240101000000".data, 2, 0⟩,
         ⟨mk_cache_name "s".data 2 "20240101000000".data, 3, 0⟩,
         ⟨mk_cache_name "s".data 0 "20240101000001".data, 4, 0⟩,
         ⟨mk_cache_name "s".data 2 "20240101000001".data, 5, 0⟩] =
      some ("20240101000001".data,
        [⟨mk_cache_name "s".data 2 "20240101000001".data, 5, 0⟩,
         ⟨mk_cache_name "s".data 0 "20240101000001".data, 4, 0⟩]) :=
  ⟨by decide,
    (C2_auto_restore "s".data _).2
      ⟨mk_cache_name "s".data 0 "20240101000001".data, 4, 0⟩ (by decide)
      "20240101000001".data (by decide) (by decide),
    by decide⟩

/-! ## Claim C5: retention / rotation -/

/-- Full specification of one rotation pass, for a positive retention
cap and a state with distinct file names. -/
theorem rotate_files_spec (pattern : List Char) (maxCount : Nat)
    (fs : List FsFile) (hmax : 1 ≤ maxCount)
    (hnd : (fs.map FsFile.name).Nodup) :
    (globFiles pattern (rotate_files pattern maxCount fs).1).length ≤ maxCount ∧
    (∀ d ∈ (rotate_files pattern maxCount fs).2,
      globMatch pattern d.name = true ∧ d ∈ fs) ∧
    (∀ d ∈ (rotate_files pattern maxCount fs).2,
      ∀ k ∈ (rotate_files pattern maxCount fs).1,
        globMatch pattern k.name = true → d.mtime ≤ k.mtime) ∧
    (∀ d ∈ (rotate_files pattern maxCount fs).2,
      ∀ k ∈ (rotate_files pattern maxCount fs).1,
        k.name ≠ sidecar_name d.name) ∧
    (∀ f ∈ fs, f ∉ (rotate_files pattern maxCount fs).1 →
      f ∈ (rotate_files pattern maxCount fs).2 ∨
        ∃ d ∈ (rotate_files pattern maxCount fs).2,
          f.name = sidecar_name d.name) := by
  have hfsnd : fs.Nodup := List.Nodup.of_map _ hnd
  unfold rotate_files
  by_cases hle : (globFiles pattern fs).length ≤ maxCount
  · rw [if_pos hle]
    refine ⟨hle, by simp, by simp, by simp, ?_⟩
    intro f hf hnot
    exact absurd hf hnot
  · rw [if_neg hle]
    simp only
    set matching := globFiles pattern fs with hmatching
    set sorted := sortAsc matching with hsorted
    have hperm : sorted.Perm matching := List.perm_insertionSort _ _
    have hsortedsorted : List.Sorted leMt sorted := List.sorted_insertionSort _ _
    have hiff0 : maxCount ≠ 0 := by omega
    rw [if_neg hiff0]
    set toDel := sorted.take (sorted.length - maxCount) with htoDel
    have hmemdel : ∀ d ∈ toDel, globMatch pattern d.name = true ∧ d ∈ fs := by
      intro d hd
      have h1 : d ∈ sorted := List.mem_of_mem_take hd
      have h2 : d ∈ matching := hperm.mem_iff.mp h1
      rw [hmatching] at h2
      unfold globFiles at h2
      rw [List.mem_filter] at h2
      exact ⟨h2.2, h2.1⟩
    have hkeeps : ∀ k, globMatch pattern k.name = true →
        k ∈ (fs.filter fun f =>
          !((toDel.map FsFile.name).contains f.name) &&
          !((toDel.map fun f => sidecar_name f.name).contains f.name)) →
        k ∈ sorted.drop (sorted.length - maxCount) := by
      intro k hkm hk
      rw [List.mem_filter] at hk
      obtain ⟨hkfs, hkcond⟩ := hk
      have hksorted : k ∈ sorted := by
        apply hperm.mem_iff.mpr
        rw [hmatching]
        unfold globFiles
        rw [List.mem_filter]
        exact ⟨hkfs, hkm⟩
      have := List.take_append_drop (sorted.length - maxCount) sorted
      rw [← this] at hksorted
      rcases List.mem_append.mp hksorted with h | h
      · exfalso
        have : k.name ∈ toDel.map FsFile.name := List.mem_map_of_mem _ h
        rw [← List.elem_iff] at this
        simp only [Bool.and_eq_true, Bool.not_eq_true'] at hkcond
        rw [show (toDel.map FsFile.name).contains k.name =
          (toDel.map FsFile.name).elem k.name from rfl, this] at hkcond
        simp at hkcond
      · exact h
    refine ⟨?_, hmemdel, ?_, ?_, ?_⟩
    · have hsub : globFiles pattern (fs.filter fun f =>
          !((toDel.map FsFile.name).contains f.name) &&
          !((toDel.map fun f => sidecar_name f.name).contains f.name)) ⊆
          sorted.drop (sorted.length - maxCount) := by
        intro k hk
        unfold globFiles at hk
        rw [List.mem_filter] at hk
        exact hkeeps k hk.2 hk.1
      have hndk : (globFiles pattern (fs.filter fun f =>
          !((toDel.map FsFile.name).contains f.name) &&
          !((toDel.map fun f => sidecar_name f.name).contains f.name))).Nodup := by
        unfold globFiles
        exact List.Nodup.filter _ (List.Nodup.filter _ hfsnd)
      have := (List.subperm_of_subset hndk hsub).length_le
      rw [List.length_drop] at this
      omega
    · intro d hd k hk hkm
      have hkd := hkeeps k hkm hk
      have hdel : d ∈ sorted.take (sorted.length - maxCount) := hd
      have hpw : List.Pairwise leMt
          (sorted.take (sorted.length - maxCount) ++
            sorted.drop (sorted.length - maxCount)) := by
        rw [List.take_append_drop]
        exact hsortedsorted
      exact (List.pairwise_append.mp hpw).2.2 d hdel k hkd
    · intro d hd k hk
      rw [List.mem_filter] at hk
      obtain ⟨hkfs, hkcond⟩ := hk
      intro he
      have : sidecar_name d.name ∈ toDel.map fun f => sidecar_name f.name :=
        List.mem_map_of_mem _ hd
      rw [← he, ← List.elem_iff] at this
      simp only [Bool.and_eq_true, Bool.not_eq_true'] at hkcond
      rw [show (toDel.map fun f => sidecar_name f.name).contains k.name =
        (toDel.map fun f => sidecar_name f.name).elem k.name from rfl, this]
        at hkcond
      simp at hkcond
    · intro f hf hnot
      have : ¬ (!((toDel.map FsFile.name).contains f.name) &&
          !((toDel.map fun f => sidecar_name f.name).contains f.name)) = true := by
        intro hcond
        exact hnot (List.mem_filter.mpr ⟨hf, hcond⟩)
      simp only [Bool.and_eq_true, Bool.not_eq_true', not_and_or,
        Bool.not_eq_false] at this
      rcases this with h | h
      · left
        rw [show (toDel.map FsFile.name).contains f.name =
          (toDel.map FsFile.name).elem f.name from rfl, List.elem_iff] at h
        obtain ⟨d, hd, hdn⟩ := List.mem_map.mp h
        have hdfs := (hmemdel d hd).2
        have : d = f := by
          have hinj := List.inj_on_of_nodup_map hnd
          exact hinj hdfs hf hdn
        rw [← this]
        exact hd
      · right
        rw [show (toDel.map fun f => sidecar_name f.name).contains f.name =
          (toDel.map fun f => sidecar_name f.name).elem f.name from rfl,
          List.elem_iff] at h
        obtain ⟨d, hd, hdn⟩ := List.mem_map.mp h
        exact ⟨d, hd, hdn.symm⟩

/-- Claim C5, counterexample: with the configured maximum 0, Python's
`files[:-0]` slice is empty, so rotation deletes nothing and leaves one
matching file, violating "never more than max_count remain". -/
theorem C5_counterexample :
    ¬ ((globFiles (cache_pattern "s".data)
        (rotate_cache_files "s".data 0
          [⟨mk_cache_name "s".data 0 "20240101000000".data, 1, 0⟩]).1).length ≤ 0) ∧
    (rotate_cache_files "s".data 0
        [⟨mk_cache_name "s".data 0 "20240101000000".data, 1, 0⟩]).2 = [] := by
  refine ⟨by decide, by decide⟩

/-- Claim C5 (amended): for every positive configured maximum and every
state with distinct file names, snapshot rotation and backup rotation
each leave at most `max_count` files matching their pattern, delete only
matching files, never delete a file while a strictly older matching file
survives, delete the fingerprint sidecar of every deleted file, and
delete nothing else. -/
theorem C5_rotation (base : List Char) (maxC : Nat) (fs : List FsFile)
    (hmax : 1 ≤ maxC) (hnd : (fs.map FsFile.name).Nodup) :
    ((globFiles (cache_pattern base) (rotate_cache_files base maxC fs).1).length ≤ maxC ∧
      (∀ d ∈ (rotate_cache_files base maxC fs).2,
        globMatch (cache_pattern base) d.name = true ∧ d ∈ fs) ∧
      (∀ d ∈ (rotate_cache_files base maxC fs).2,
        ∀ k ∈ (rotate_cache_files base maxC fs).1,
          globMatch (cache_pattern base) k.name = true → d.mtime ≤ k.mtime) ∧
      (∀ d ∈ (rotate_cache_files base maxC fs).2,
        ∀ k ∈ (rotate_cache_files base maxC fs).1,
          k.name ≠ sidecar_name d.name) ∧
      (∀ f ∈ fs, f ∉ (rotate_cache_files base maxC fs).1 →
        f ∈ (rotate_cache_files base maxC fs).2 ∨
          ∃ d ∈ (rotate_cache_files base maxC fs).2,
            f.name = sidecar_name d.name)) ∧
    ((globFiles (backup_pattern base) (rotate_backups base maxC fs).1).length ≤ maxC ∧
      (∀ d ∈ (rotate_backups base maxC fs).2,
        globMatch (backup_pattern base) d.name = true ∧ d ∈ fs) ∧
      (∀ d ∈ (rotate_backups base maxC fs).2,
        ∀ k ∈ (rotate_backups base maxC fs).1,
          globMatch (backup_pattern base) k.name = true → d.mtime ≤ k.mtime) ∧
      (∀ d ∈ (rotate_backups base maxC fs).2,
        ∀ k ∈ (rotate_backups base maxC fs).1,
          k.name ≠ sidecar_name d.name) ∧
      (∀ f ∈ fs, f ∉ (rotate_backups base maxC fs).1 →
        f ∈ (rotate_backups base maxC fs).2 ∨
          ∃ d ∈ (rotate_backups base maxC fs).2,
            f.name = sidecar_name d.name)) :=
  ⟨rotate_files_spec (cache_pattern base) maxC fs hmax hnd,
    rotate_files_spec (backup_pattern base) maxC fs hmax hnd⟩

/-- Concrete instance of `C5_rotation`: four snapshots, cap two. -/
theorem C5_rotation_witness :
    (globFiles (cache_pattern "s".data)
      (rotate_cache_files "s".data 2
        [⟨mk_cache_name "s".data 0 "20240101000000".data, 1, 0⟩,
         ⟨mk_cache_name "s".data 1 "20240101000000".data, 2, 0⟩,
         ⟨mk_cache_name "s".data 0 "20240101000001".data, 3, 0⟩,
         ⟨mk_cache_name "s".data 1 "20240101000001".data, 4, 0⟩]).1).length ≤ 2 ∧
    (rotate_cache_files "s".data 2
        [⟨mk_cache_name "s".data 0 "20240101000000".data, 1, 0⟩,
         ⟨mk_cache_name "s".data 1 "20240101000000".data, 2, 0⟩,
         ⟨mk_cache_name "s".data 0 "20240101000001".data, 3, 0⟩,
         ⟨mk_cache_name "s".data 1 "20240101000001".data, 4, 0⟩]).2.map
      FsFile.mtime = [1, 2] :=
  ⟨((C5_rotation "s".data 2 _ (by decide) (by decide)).1).1, by decide⟩

/-! ## Claims C3 and C7: the save cycle -/

/-- Closed form of the per-slot loop: every discovered slot is attempted
independently — the state gains exactly the files the server
materialised, and the success count is the number of slots that fully
succeeded, regardless of the other slots' outcomes. -/
theorem save_slots_loop_spec (base ts : List Char)
    (outcome : Int → SlotSaveOutcome) (newMt newCt : Int → Nat) :
    ∀ (slots : List Int) (fs : List FsFile) (cnt : Nat),
      (save_slots_loop base ts outcome newMt newCt slots fs cnt).1 =
        fs ++ (slots.filter fun s => (outcome s).created).map
          (fun s => ⟨mk_cache_name base s ts, newMt s, newCt s⟩) ∧
      (save_slots_loop base ts outcome newMt newCt slots fs cnt).2 =
        cnt + (slots.filter fun s => save_slot_ok (outcome s)).length := by
  intro slots
  induction slots with
  | nil => intro fs cnt; simp [save_slots_loop]
  | cons s rest ih =>
    intro fs cnt
    unfold save_slots_loop
    obtain ⟨ih1, ih2⟩ := ih
      (if (outcome s).created then
        fs ++ [⟨mk_cache_name base s ts, newMt s, newCt s⟩] else fs)
      (if save_slot_ok (outcome s) then cnt + 1 else cnt)
    constructor
    · rw [ih1]
      by_cases hc : (outcome s).created
      · rw [if_pos hc, List.filter_cons_of_pos (by simp [hc])]
        simp [List.append_assoc]
      · rw [if_neg hc, List.filter_cons_of_neg (by simp [hc])]
    · rw [ih2]
      by_cases hk : save_slot_ok (outcome s)
      · rw [if_pos hk, List.filter_cons_of_pos (by simp [hk])]
        simp
        omega
      · rw [if_neg hk, List.filter_cons_of_neg (by simp [hk])]

/-- Claim C3, counterexample: a cycle whose discovered slots {0, 1} both
fail does not run snapshot rotation at all — rotation is not
unconditionally "exactly once after all slots have been attempted", it
is skipped when no slot succeeded. -/
theorem C3_counterexample :
    (save_cache "s".data "20240101000000".data 10 [0, 1]
        (fun _ => ⟨false, 500, false⟩) (fun _ => 1) (fun _ => 1)
        []).rotationRan = false ∧
    ([0, 1] : List Int) ≠ [] := by
  refine ⟨by decide, by decide⟩

/-- Claim C3 (amended): a save cycle attempts every discovered slot
independently (the state gains a file for every slot whose save
materialised, and the success count tallies every fully-successful slot,
whatever happened to the others); snapshot rotation runs exactly once
when at least one slot succeeded and not at all otherwise; the cycle
reports success iff at least one slot succeeded. -/
theorem C3_save_cycle (base ts : List Char) (maxF : Nat) (slots : List Int)
    (outcome : Int → SlotSaveOutcome) (newMt newCt : Int → Nat)
    (fs : List FsFile) :
    (save_cache base ts maxF slots outcome newMt newCt fs).successCount =
      (slots.filter fun s => save_slot_ok (outcome s)).length ∧
    ((save_cache base ts maxF slots outcome newMt newCt fs).returned = true ↔
      0 < (slots.filter fun s => save_slot_ok (outcome s)).length) ∧
    ((save_cache base ts maxF slots outcome newMt newCt fs).rotationRan = true ↔
      0 < (slots.filter fun s => save_slot_ok (outcome s)).length) ∧
    (slots ≠ [] →
      (save_cache base ts maxF slots outcome newMt newCt fs).fs =
        (if 0 < (slots.filter fun s => save_slot_ok (outcome s)).length then
          (rotate_cache_files base maxF
            (fs ++ (slots.filter fun s => (outcome s).created).map
              (fun s => ⟨mk_cache_name base s ts, newMt s, newCt s⟩))).1
        else fs ++ (slots.filter fun s => (outcome s).created).map
          (fun s => ⟨mk_cache_name base s ts, newMt s, newCt s⟩))) ∧
    (slots = [] →
      save_cache base ts maxF slots outcome newMt newCt fs = ⟨fs, 0, false, false⟩) := by
  obtain ⟨hl1, hl2⟩ := save_slots_loop_spec base ts outcome newMt newCt slots fs 0
  unfold save_cache
  by_cases hs : slots.isEmpty
  · rw [if_pos hs]
    rw [List.isEmpty_iff] at hs
    subst hs
    simp
  · rw [if_neg hs]
    rw [List.isEmpty_iff] at hs
    rw [show (save_slots_loop base ts outcome newMt newCt slots fs 0) =
      ((save_slots_loop base ts outcome newMt newCt slots fs 0).1,
        (save_slots_loop base ts outcome newMt newCt slots fs 0).2) from rfl]
    rw [hl1, hl2]
    simp only [Nat.zero_add]
    by_cases hcnt : 0 < (slots.filter fun s => save_slot_ok (outcome s)).length
    · rw [if_pos hcnt]
      refine ⟨rfl, by simpa using hcnt, by simpa using hcnt, ?_, fun h => absurd h hs⟩
      intro _
      rw [if_pos hcnt]
    · rw [if_neg hcnt]
      refine ⟨rfl, by simpa using hcnt, by simpa using hcnt, ?_, fun h => absurd h hs⟩
      intro _
      rw [if_neg hcnt]

/-- Concrete instance of `C3_save_cycle`: slots {0, 1} discovered, slot
1's remote call fails with HTTP 500; the cycle leaves a file for slot 0,
no file for slot 1, and reports overall success. -/
theorem C3_save_cycle_witness :
    (([0, 1] : List Int) ≠ []) ∧
    ((save_cache "s".data "20240101000000".data 10 [0, 1]
        (fun s => if s = 0 then ⟨false, 200, true⟩ else ⟨false, 500, false⟩)
        (fun _ => 7) (fun _ => 9) []).fs =
      (if 0 < (([0, 1] : List Int).filter fun s => save_slot_ok
          (if s = 0 then ⟨false, 200, true⟩ else ⟨false, 500, false⟩)).length then
        (rotate_cache_files "s".data 10
          (([] : List FsFile) ++ (([0, 1] : List Int).filter fun s =>
            (if s = 0 then (⟨false, 200, true⟩ : SlotSaveOutcome)
              else ⟨false, 500, false⟩).created).map
            (fun s => ⟨mk_cache_name "s".data s "20240101000000".data, 7, 9⟩))).1
      else ([] : List FsFile) ++ (([0, 1] : List Int).filter fun s =>
        (if s = 0 then (⟨false, 200, true⟩ : SlotSaveOutcome)
          else ⟨false, 500, false⟩).created).map
        (fun s => ⟨mk_cache_name "s".data s "20240101000000".data, 7, 9⟩))) ∧
    (save_cache "s".data "20240101000000".data 10 [0, 1]
        (fun s => if s = 0 then ⟨false, 200, true⟩ else ⟨false, 500, false⟩)
        (fun _ => 7) (fun _ => 9) []).fs =
      [⟨mk_cache_name "s".data 0 "20240101000000".data, 7, 9⟩] ∧
    (save_cache "s".data "20240101000000".data 10 [0, 1]
        (fun s => if s = 0 then ⟨false, 200, true⟩ else ⟨false, 500, false⟩)
        (fun _ => 7) (fun _ => 9) []).returned = true :=
  ⟨by decide,
    (C3_save_cycle "s".data "20240101000000".data 10 [0, 1]
      (fun s => if s = 0 then ⟨false, 200, true⟩ else ⟨false, 500, false⟩)
      (fun _ => 7) (fun _ => 9) []).2.2.2.1 (by decide),
    by decide, by decide⟩

/-- Claim C7: presence-on-disk is the ground truth.  The success count
tallies exactly the slots whose call did not raise, returned HTTP 200,
and whose file exists afterwards; in particular a slot whose call
returned HTTP 200 but whose file is absent counts as failed. -/
theorem C7_presence_ground_truth (base ts : List Char) (maxF : Nat)
    (slots : List Int) (outcome : Int → SlotSaveOutcome)
    (newMt newCt : Int → Nat) (fs : List FsFile) :
    (save_cache base ts maxF slots outcome newMt newCt fs).successCount =
      (slots.filter fun s =>
        !(outcome s).raises && (outcome s).status == 200 &&
          (outcome s).created).length ∧
    (∀ s ∈ slots, (outcome s).status = 200 → (outcome s).created = false →
      save_slot_ok (outcome s) = false) ∧
    (∀ s ∈ slots, save_slot_ok (outcome s) = true → (outcome s).created = true) := by
  refine ⟨(C3_save_cycle base ts maxF slots outcome newMt newCt fs).1, ?_, ?_⟩
  · intro s _ _ hc
    unfold save_slot_ok
    rw [hc]
    simp
  · intro s _ hok
    unfold save_slot_ok at hok
    simp only [Bool.and_eq_true] at hok
    exact hok.2

/-- Concrete instance of `C7_presence_ground_truth`: one slot answers
HTTP 200 but no file appears; the cycle counts zero successes. -/
theorem C7_presence_witness :
    (save_cache "s".data "20240101000000".data 10 [0]
        (fun _ => ⟨false, 200, false⟩) (fun _ => 1) (fun _ => 1)
        []).successCount = 0 ∧
    save_slot_ok ⟨false, 200, false⟩ = false :=
  ⟨by decide,
    (C7_presence_ground_truth "s".data "20240101000000".data 10 [0]
      (fun _ => ⟨false, 200, false⟩) (fun _ => 1) (fun _ => 1) []).2.1 0
      (by decide) (by decide) (by decide)⟩

/-! ## Claim C6: slot discovery -/

/-- Claim C6, counterexample: a bulk listing that names slot 2 twice
yields the discovery result `[2, 2]` — sorted, but not duplicate-free as
the claim states for every server response. -/
theorem C6_counterexample :
    get_all_slots_with_data (.okList [.intId 2, .intId 2]) (fun _ => true) 4 =
      [2, 2] ∧
    ¬ (get_all_slots_with_data (.okList [.intId 2, .intId 2])
        (fun _ => true) 4).Nodup := by
  refine ⟨by decide, by decide⟩

/-- Claim C6 (amended): slot discovery always returns an ascending list
in which every slot failing the validity check (in particular, every
slot whose status query was unreachable, which `is_cache_valid` maps to
"not valid") is excluded, and the empty list is the non-error result
when no slot is valid.  The result is duplicate-free whenever the bulk
listing itself carries no duplicate ids — and always on the fallback
probing path — but a bulk listing with duplicate ids is echoed with its
duplicates. -/
theorem C6_slot_discovery (resp : SlotsResponse) (valid : Int → Bool)
    (maxCheck : Nat) :
    List.Sorted (· ≤ ·) (get_all_slots_with_data resp valid maxCheck) ∧
    ((bulkCandidates resp).Nodup →
      (get_all_slots_with_data resp valid maxCheck).Nodup) ∧
    (∀ i : Int, valid i = false →
      i ∉ get_all_slots_with_data resp valid maxCheck) ∧
    ((∀ i : Int, valid i = false) →
      get_all_slots_with_data resp valid maxCheck = []) ∧
    is_cache_valid none = false := by
  haveI hTot : IsTotal Int (· ≤ ·) := ⟨fun a b => Int.le_total a b⟩
  haveI hTrans : IsTrans Int (· ≤ ·) := ⟨fun a b c h h2 => Int.le_trans h h2⟩
  have hsorted : ∀ l : List Int, List.Sorted (· ≤ ·) (sortInts l) := fun l =>
    List.sorted_insertionSort _ l
  have hmem : ∀ (l : List Int) (x : Int), x ∈ sortInts l ↔ x ∈ l := fun l x =>
    List.mem_insertionSort _
  have hnodup : ∀ l : List Int, l.Nodup → (sortInts l).Nodup := fun l h =>
    ((List.perm_insertionSort _ l).nodup_iff).mpr h
  have hcand : get_all_slots_with_data resp valid maxCheck =
      sortInts ((match resp with
        | .okList es => bulkCandidates (.okList es)
        | .okDict keys => bulkCandidates (.okDict keys)
        | .okOther => []
        | _ => (List.range maxCheck).map Int.ofNat).filter valid) := by
    cases resp <;> rfl
  constructor
  · rw [hcand]; exact hsorted _
  refine ⟨?_, ?_, ?_, rfl⟩
  · intro hnd
    rw [hcand]
    apply hnodup
    apply List.Nodup.filter
    cases resp with
    | okList es => exact hnd
    | okDict keys => exact hnd
    | okOther => exact List.nodup_nil
    | non200 =>
      exact (List.nodup_range _).map (fun a b h => Int.ofNat.inj h)
    | exn =>
      exact (List.nodup_range _).map (fun a b h => Int.ofNat.inj h)
  · intro i hv hi
    rw [hcand, hmem, List.mem_filter] at hi
    rw [hv] at hi
    simp at hi
  · intro hall
    rw [hcand]
    rw [List.filter_eq_nil_iff.mpr (fun a _ => by rw [hall a]; simp)]
    rfl

/-- Concrete instance of `C6_slot_discovery`: a well-formed bulk listing
with mixed entry shapes. -/
theorem C6_slot_discovery_witness :
    (bulkCandidates (.okList [.intId 3, .objWithId 1, .objNoId, .other])).Nodup ∧
    (get_all_slots_with_data (.okList [.intId 3, .objWithId 1, .objNoId, .other])
        (fun i => decide (0 ≤ i)) 4).Nodup ∧
    get_all_slots_with_data (.okList [.intId 3, .objWithId 1, .objNoId, .other])
        (fun i => decide (0 ≤ i)) 4 = [1, 3] :=
  ⟨by decide,
    (C6_slot_discovery (.okList [.intId 3, .objWithId 1, .objNoId, .other])
      (fun i => decide (0 ≤ i)) 4).2.1 (by decide),
    by decide⟩

/-! ## Claim C8: the shutdown state machine -/

/-- Loop invariant: processing signal-free events keeps the loop alive
and uncounted. -/
theorem run_ticks_inv : ∀ (evs : List LoopEv) (s : LoopSt),
    s.exited = false → s.running = true → s.sigCount = 0 →
    (∀ e ∈ evs, e ≠ LoopEv.sig) →
    (evs.foldl loop_step s).exited = false ∧
    (evs.foldl loop_step s).running = true ∧
    (evs.foldl loop_step s).sigCount = 0 ∧
    (evs.foldl loop_step s).finalSaves = s.finalSaves := by
  intro evs
  induction evs with
  | nil => intro s h1 h2 h3 _; exact ⟨h1, h2, h3, rfl⟩
  | cons e rest ih =>
    intro s h1 h2 h3 hnos
    rw [List.foldl_cons]
    cases e with
    | sig => exact absurd rfl (hnos _ (by simp))
    | tick doSave k =>
      have hstep : ∀ s' : LoopSt, (loop_step s' (LoopEv.tick doSave k)).exited
          = s'.exited ∧ (loop_step s' (LoopEv.tick doSave k)).running = s'.running ∧
          (loop_step s' (LoopEv.tick doSave k)).sigCount = s'.sigCount ∧
          (loop_step s' (LoopEv.tick doSave k)).finalSaves = s'.finalSaves := by
        intro s'
        unfold loop_step
        dsimp only
        split_ifs <;> exact ⟨rfl, rfl, rfl, rfl⟩
      obtain ⟨he, hr, hc, hf⟩ := hstep s
      obtain ⟨ih1, ih2, ih3, ih4⟩ := ih (loop_step s (LoopEv.tick doSave k))
        (by rw [he, h1]) (by rw [hr, h2]) (by rw [hc, h3])
        (fun e he => hnos e (by simp [he]))
      exact ⟨ih1, ih2, ih3, by rw [ih4, hf]⟩

/-- After `running` is cleared, signal-free events are inert. -/
theorem run_dead_inv : ∀ (evs : List LoopEv) (s : LoopSt),
    s.running = false → (∀ e ∈ evs, e ≠ LoopEv.sig) →
    evs.foldl loop_step s = s := by
  intro evs
  induction evs with
  | nil => intro s _ _; rfl
  | cons e rest ih =>
    intro s h1 hnos
    rw [List.foldl_cons]
    cases e with
    | sig => exact absurd rfl (hnos _ (by simp))
    | tick doSave k =>
      have hcond : (s.exited || !s.running) = true := by
        rw [h1]
        simp
      have hinert : loop_step s (LoopEv.tick doSave k) = s := by
        unfold loop_step
        dsimp only
        rw [if_pos hcond]
      rw [hinert]
      exact ih s h1 (fun e he => hnos e (by simp [he]))

/-- Claim C8: shutdown behaviour of the control loop.  After any
signal-free run of the loop, a first cancellation request makes the
process perform exactly one final save cycle (creating its `k` files)
and stop, later ticks being inert; a second cancellation request
arriving before that draining save has run terminates at once, with no
final save and no new snapshot file compared to the pre-signal state. -/
theorem C8_shutdown (evs suffix : List LoopEv) (k : Nat)
    (h1 : ∀ e ∈ evs, e ≠ LoopEv.sig) (h2 : ∀ e ∈ suffix, e ≠ LoopEv.sig) :
    ((kv_main (evs ++ LoopEv.sig :: suffix) k).finalSaves = 1 ∧
      (kv_main (evs ++ LoopEv.sig :: suffix) k).files = (run_events evs).files + k ∧
      (kv_main (evs ++ LoopEv.sig :: suffix) k).running = false) ∧
    ((kv_main (evs ++ [LoopEv.sig, LoopEv.sig]) k).finalSaves = 0 ∧
      (kv_main (evs ++ [LoopEv.sig, LoopEv.sig]) k).files = (run_events evs).files ∧
      (kv_main (evs ++ [LoopEv.sig, LoopEv.sig]) k).exited = true) := by
  obtain ⟨he0, hr0, hc0, hf0⟩ :=
    run_ticks_inv evs loopInit rfl rfl rfl h1
  set s0 := run_events evs with hs0
  have hs0' : List.foldl loop_step loopInit evs = s0 := rfl
  rw [hs0'] at he0 hr0 hc0 hf0
  have hsig1 : handle_signal s0 = { s0 with sigCount := s0.sigCount + 1, running := false } := by
    unfold handle_signal
    rw [if_neg (by rw [he0]; simp), if_neg (by rw [hc0]; omega)]
  have hsig2 : handle_signal { s0 with sigCount := s0.sigCount + 1, running := false } = { s0 with sigCount := s0.sigCount + 2, running := false, exited := true } := by
    unfold handle_signal
    rw [if_neg (by show ¬ (s0.exited = true); rw [he0]; simp),
      if_pos (by show 2 ≤ s0.sigCount + 1 + 1; omega)]
  constructor
  · have hrun : run_events (evs ++ LoopEv.sig :: suffix) =
        { s0 with sigCount := s0.sigCount + 1, running := false } := by
      unfold run_events
      rw [List.foldl_append, hs0', List.foldl_cons]
      rw [show loop_step s0 LoopEv.sig = handle_signal s0 from rfl, hsig1]
      exact run_dead_inv suffix _ rfl h2
    unfold kv_main
    rw [hrun]
    unfold main_shutdown
    rw [if_neg (by show ¬ (s0.exited = true); rw [he0]; simp)]
    refine ⟨?_, rfl, rfl⟩
    show s0.finalSaves + 1 = 1
    rw [hf0]
    rfl
  · have hrun : run_events (evs ++ [LoopEv.sig, LoopEv.sig]) = { s0 with sigCount := s0.sigCount + 2, running := false, exited := true } := by
      unfold run_events
      rw [List.foldl_append, hs0', List.foldl_cons, List.foldl_cons]
      rw [show loop_step s0 LoopEv.sig = handle_signal s0 from rfl, hsig1]
      rw [show loop_step { s0 with sigCount := s0.sigCount + 1, running := false } LoopEv.sig = handle_signal { s0 with sigCount := s0.sigCount + 1, running := false } from rfl, hsig2]
      rfl
    unfold kv_main
    rw [hrun]
    unfold main_shutdown
    rw [if_pos rfl]
    refine ⟨?_, rfl, rfl⟩
    show s0.finalSaves = 0
    rw [hf0]
    rfl

/-- Concrete instance of `C8_shutdown`. -/
theorem C8_shutdown_witness :
    ((kv_main ([LoopEv.tick true 2] ++ LoopEv.sig :: [LoopEv.tick false 0])
        3).finalSaves = 1 ∧
      (kv_main ([LoopEv.tick true 2] ++ LoopEv.sig :: [LoopEv.tick false 0])
        3).files = (run_events [LoopEv.tick true 2]).files + 3 ∧
      (kv_main ([LoopEv.tick true 2] ++ LoopEv.sig :: [LoopEv.tick false 0])
        3).running = false) ∧
    ((kv_main ([LoopEv.tick true 2] ++ [LoopEv.sig, LoopEv.sig]) 3).finalSaves = 0 ∧
      (kv_main ([LoopEv.tick true 2] ++ [LoopEv.sig, LoopEv.sig]) 3).files =
        (run_events [LoopEv.tick true 2]).files ∧
      (kv_main ([LoopEv.tick true 2] ++ [LoopEv.sig, LoopEv.sig]) 3).exited = true) :=
  C8_shutdown [LoopEv.tick true 2] [LoopEv.tick false 0] 3
    (by intro e he; simp at he; subst he; simp)
    (by intro e he; simp at he; subst he; simp)

/-- A file whose name matches neither the pattern nor any sidecar name
survives a rotation pass untouched. -/
theorem rotate_files_keep {pattern : List Char} {maxC : Nat}
    {fs : List FsFile} {f : FsFile} (hf : f ∈ fs)
    (hmatch : globMatch pattern f.name = false)
    (hside : ∀ g : FsFile, f.name ≠ sidecar_name g.name) :
    f ∈ (rotate_files pattern maxC fs).1 := by
  unfold rotate_files
  by_cases hle : (globFiles pattern fs).length ≤ maxC
  · rw [if_pos hle]
    exact hf
  · rw [if_neg hle]
    simp only
    set sorted := sortAsc (globFiles pattern fs) with hsorted
    set toDel := if maxC = 0 then [] else sorted.take (sorted.length - maxC)
      with htoDel
    apply List.mem_filter.mpr
    refine ⟨hf, ?_⟩
    simp only [Bool.and_eq_true, Bool.not_eq_true']
    constructor
    · by_contra hcon
      rw [Bool.not_eq_false,
        show (toDel.map FsFile.name).contains f.name =
          (toDel.map FsFile.name).elem f.name from rfl, List.elem_iff] at hcon
      obtain ⟨d, hd, hdn⟩ := List.mem_map.mp hcon
      have hdm : d ∈ sorted := by
        rw [htoDel] at hd
        by_cases h0 : maxC = 0
        · rw [if_pos h0] at hd; simp at hd
        · rw [if_neg h0] at hd; exact List.mem_of_mem_take hd
      have hdmatch : globMatch pattern d.name = true := by
        rw [hsorted] at hdm
        have := (List.perm_insertionSort leMt _).mem_iff.mp hdm
        unfold globFiles at this
        exact (List.mem_filter.mp this).2
      rw [hdn, hmatch] at hdmatch
      simp at hdmatch
    · by_contra hcon
      rw [Bool.not_eq_false,
        show ((toDel.map fun g => sidecar_name g.name).contains f.name) =
          ((toDel.map fun g => sidecar_name g.name).elem f.name) from rfl,
        List.elem_iff] at hcon
      obtain ⟨d, _, hdn⟩ := List.mem_map.mp hcon
      exact hside d hdn.symm

/-- Rotation is a no-op when the matching files fit under the cap. -/
theorem rotate_files_noop {pattern : List Char} {maxC : Nat}
    {fs : List FsFile} (hle : (globFiles pattern fs).length ≤ maxC) :
    rotate_files pattern maxC fs = (fs, []) := by
  unfold rotate_files
  rw [if_pos hle]

/-! ## Claim C9: decoding is total and unparseable names are excluded -/

/-- Claim C9: every file placed in a timestamp group carries exactly
that decoded timestamp; a file whose name does not decode belongs to no
group; and every decoded timestamp is a valid 14-digit string.  (The
decoders themselves are total functions into `Option`, mirroring the
code's catch-all exception handling that returns `None`.) -/
theorem C9_decode_groups (base : List Char) (fs : List FsFile) :
    (∀ ts : List Char, ∀ f ∈ groupFiles (get_cache_files base none fs) ts,
      extract_timestamp_from_filename f.name = some ts) ∧
    (∀ f : FsFile, extract_timestamp_from_filename f.name = none →
      ∀ ts : List Char, f ∉ groupFiles (get_cache_files base none fs) ts) ∧
    (∀ ts ∈ groupKeys (get_cache_files base none fs),
      pyIsDigit ts = true ∧ ts.length = 14) := by
  refine ⟨?_, ?_, ?_⟩
  · intro ts f hf
    exact (mem_groupFiles.mp hf).2
  · intro f hnone ts hf
    rw [(mem_groupFiles.mp hf).2] at hnone
    simp at hnone
  · intro ts hts
    obtain ⟨f, _, hf⟩ := mem_groupKeys.mp hts
    exact extract_ts_valid hf

/-- Concrete instance of `C9_decode_groups`: an unparseable name is in
no group of a mixed directory. -/
theorem C9_decode_groups_witness :
    extract_timestamp_from_filename "s_slotX_junk.bin".data = none ∧
    ∀ ts : List Char,
      (⟨"s_slotX_junk.bin".data, 9, 9⟩ : FsFile) ∉
        groupFiles (get_cache_files "s".data none
          [⟨mk_cache_name "s".data 0 "20240101000000".data, 1, 0⟩,
           ⟨"s_slotX_junk.bin".data, 9, 9⟩]) ts :=
  ⟨by decide,
    (C9_decode_groups "s".data
      [⟨mk_cache_name "s".data 0 "20240101000000".data, 1, 0⟩,
       ⟨"s_slotX_junk.bin".data, 9, 9⟩]).2.1
      ⟨"s_slotX_junk.bin".data, 9, 9⟩ (by decide)⟩

/-! ## Claim C10: named backups versus the backup pattern -/

/-- Claim C10, counterexample: the operator-suppliable label
`backup_s_slot0` (it passes the name validator) produces, for session
`s`, a file that does match the backup pattern `backup_s_slot*_*.bin`,
contradicting "never match" as claimed for every label other than
`backup`. -/
theorem C10_counterexample :
    py_name_valid "backup_s_slot0".data = true ∧
    "backup_s_slot0".data ≠ "backup".data ∧
    globMatch (backup_pattern "s".data)
      (mk_backup_name "backup_s_slot0".data
        (mk_cache_name "s".data 0 "20240101000000".data)) = true := by
  refine ⟨by decide, by decide, by decide⟩

/-- Claim C10 (amended): for every operator-supplied backup label other
than `backup` that contains no underscore and is not a text prefix of
the session identifier (and a session free of glob metacharacters), the
named-backup files match neither the backup pattern nor the snapshot
pattern; consequently backup rotation never deletes them (nor their
sidecars), and they never appear among the restore candidates
enumerated for the session. -/
theorem C10_named_backup_isolation (label sess ts : List Char) (slot : Int)
    (hlu : ∀ c ∈ label, c ≠ '_') (hlb : label ≠ "backup".data)
    (hlp : label.isPrefixOf sess = false) (hstar : '*' ∉ sess) :
    globMatch (backup_pattern sess)
      (mk_backup_name label (mk_cache_name sess slot ts)) = false ∧
    globMatch (cache_pattern sess)
      (mk_backup_name label (mk_cache_name sess slot ts)) = false ∧
    (∀ (maxB : Nat) (fs : List FsFile) (f : FsFile), f ∈ fs →
      f.name = mk_backup_name label (mk_cache_name sess slot ts) →
      f ∈ (rotate_backups sess maxB fs).1) ∧
    (∀ (fs : List FsFile) (f : FsFile), f ∈ fs →
      f.name = mk_backup_name label (mk_cache_name sess slot ts) →
      f ∉ restore_candidate_files sess fs) := by
  have hshape : mk_backup_name label (mk_cache_name sess slot ts) =
      label ++ '_' :: mk_cache_name sess slot ts := rfl
  have hb : globMatch (backup_pattern sess)
      (mk_backup_name label (mk_cache_name sess slot ts)) = false := by
    rw [Bool.eq_false_iff]
    intro hm
    rw [backup_pattern_eq] at hm
    have hlit : ∀ c ∈ ("backup_".data ++ sess) ++ "_slot".data, c ≠ '*' := by
      intro c hc
      rcases List.mem_append.mp hc with h | h
      · rcases List.mem_append.mp h with h1 | h1
        · intro e; subst e; revert h1; decide
        · intro e; subst e; exact hstar h1
      · intro e; subst e; revert h; decide
    have hp := globMatch_lit_pref hlit hm
    rw [show ("backup_".data ++ sess) ++ "_slot".data =
      "backup".data ++ '_' :: (sess ++ "_slot".data) from by
        rw [show ("backup_".data : List Char) = "backup".data ++ ['_'] from rfl]
        simp [List.append_assoc], hshape] at hp
    exact hlb (word_align_uscore (by decide) hlu hp).symm
  have hc : globMatch (cache_pattern sess)
      (mk_backup_name label (mk_cache_name sess slot ts)) = false := by
    rw [Bool.eq_false_iff]
    intro hm
    rw [cache_pattern_eq] at hm
    have hlit : ∀ c ∈ sess ++ "_slot".data, c ≠ '*' := by
      intro c hc
      rcases List.mem_append.mp hc with h | h
      · intro e; subst e; exact hstar h
      · intro e; subst e; revert h; decide
    have hp := globMatch_lit_pref hlit hm
    rw [show sess ++ "_slot".data = sess ++ '_' :: "slot".data from rfl,
      hshape] at hp
    have hnp : ¬ (label <+: sess) := by
      intro hcon
      have := List.isPrefixOf_iff_prefix.mpr hcon
      rw [this] at hlp
      exact absurd hlp (by decide)
    exact no_align_left hlu hnp hp
  have hends : ∀ d : FsFile,
      mk_backup_name label (mk_cache_name sess slot ts) ≠
        sidecar_name d.name := by
    intro d he
    have hform : mk_backup_name label (mk_cache_name sess slot ts) =
        (label ++ '_' :: (sess ++ "_slot".data ++ intChars slot ++ '_' :: ts))
          ++ ".bin".data := by
      simp [mk_backup_name, mk_cache_name, List.append_assoc]
    rw [hform] at he
    unfold sidecar_name at he
    have := congrArg List.reverse he
    simp only [List.reverse_append] at this
    rw [show (".bin".data : List Char).reverse = 'n' :: "ib.".data from rfl,
      show (".hash".data : List Char).reverse = 'h' :: "sah.".data from rfl] at this
    simp only [List.cons_append, List.cons.injEq] at this
    exact absurd this.1 (by decide)
  refine ⟨hb, hc, ?_, ?_⟩
  · intro maxB fs f hf hfn
    apply rotate_files_keep hf
    · rw [hfn]; exact hb
    · intro g; rw [hfn]; exact hends g
  · intro fs f hf hfn hmem
    unfold restore_candidate_files at hmem
    rcases List.mem_append.mp hmem with h | h
    · unfold globFiles at h
      rw [List.mem_filter, hfn] at h
      rw [hc] at h
      simp at h
    · unfold globFiles at h
      rw [List.mem_filter, hfn] at h
      rw [hb] at h
      simp at h

/-- Concrete instance of `C10_named_backup_isolation` with the label
`mybak` and session `s`. -/
theorem C10_named_backup_isolation_witness :
    globMatch (backup_pattern "s".data)
      (mk_backup_name "mybak".data
        (mk_cache_name "s".data 0 "20240101000000".data)) = false ∧
    globMatch (cache_pattern "s".data)
      (mk_backup_name "mybak".data
        (mk_cache_name "s".data 0 "20240101000000".data)) = false ∧
    (⟨mk_backup_name "mybak".data
        (mk_cache_name "s".data 0 "20240101000000".data), 9, 9⟩ : FsFile) ∈
      (rotate_backups "s".data 1
        [⟨mk_backup_name "mybak".data
          (mk_cache_name "s".data 0 "20240101000000".data), 9, 9⟩]).1 ∧
    (⟨mk_backup_name "mybak".data
        (mk_cache_name "s".data 0 "20240101000000".data), 9, 9⟩ : FsFile) ∉
      restore_candidate_files "s".data
        [⟨mk_backup_name "mybak".data
          (mk_cache_name "s".data 0 "20240101000000".data), 9, 9⟩] := by
  have h := C10_named_backup_isolation "mybak".data "s".data
    "20240101000000".data 0 (by decide) (by decide) (by decide) (by decide)
  exact ⟨h.1, h.2.1,
    h.2.2.1 1 _ _ (by simp) rfl,
    h.2.2.2 _ _ (by simp) rfl⟩

theorem tsOk_digits {e : Entry} (h : tsOk e) : ∀ c ∈ e.ts, digitB c = true := by
  have h2 := h.1
  unfold pyIsDigit at h2
  simp only [Bool.and_eq_true, List.all_eq_true] at h2
  exact h2.2

/-- A snapshot name matches the snapshot pattern. -/
theorem snapName_matches_cache {sess : List Char} (hstar : '*' ∉ sess)
    (e : Entry) : globMatch (cache_pattern sess) (snapName sess e) = true := by
  rw [globMatch_cache_iff hstar]
  exact ⟨intChars (Int.ofNat e.slot), e.ts, by
    rw [snapName, mk_cache_name_eq]⟩

/-- A backup name matches the backup pattern. -/
theorem bakName_matches_backup {sess : List Char} (hstar : '*' ∉ sess)
    (e : Entry) :
    globMatch (backup_pattern sess) ((bakFile sess e).name) = true := by
  rw [globMatch_backup_iff hstar]
  refine ⟨intChars (Int.ofNat e.slot), e.ts, ?_⟩
  show "backup_".data ++ snapName sess e = _
  rw [snapName, mk_cache_name_eq]
  simp [List.append_assoc]

/-- A backup name does not match the snapshot pattern. -/
theorem bakName_not_cache {sess : List Char} (hsess : sessOk sess)
    (e : Entry) :
    globMatch (cache_pattern sess) ((bakFile sess e).name) = false := by
  rw [Bool.eq_false_iff]
  intro hm
  rw [cache_pattern_eq] at hm
  have hlit : ∀ c ∈ sess ++ "_slot".data, c ≠ '*' := by
    intro c hc
    rcases List.mem_append.mp hc with h | h
    · intro he; subst he; exact hsess.2.2.2 h
    · intro he; subst he; revert h; decide
  have hp := globMatch_lit_pref hlit hm
  rw [show sess ++ "_slot".data = sess ++ '_' :: "slot".data from rfl] at hp
  rw [show (bakFile sess e).name = "backup".data ++
      '_' :: (snapName sess e) from by
    show "backup_".data ++ snapName sess e = _
    rw [show ("backup_".data : List Char) = "backup".data ++ ['_'] from rfl]
    simp [List.append_assoc]] at hp
  have hnp : ¬ ("backup".data <+: sess) := by
    intro hcon
    have hb := List.isPrefixOf_iff_prefix.mpr hcon
    rw [hsess.2.1] at hb
    exact absurd hb (by decide)
  exact no_align_left (by decide) hnp hp

/-- A snapshot name does not match the backup pattern. -/
theorem snapName_not_backup {sess : List Char} (hsess : sessOk sess)
    (e : Entry) :
    globMatch (backup_pattern sess) (snapName sess e) = false := by
  rw [Bool.eq_false_iff]
  intro hm
  rw [backup_pattern_eq] at hm
  have hlit : ∀ c ∈ ("backup_".data ++ sess) ++ "_slot".data, c ≠ '*' := by
    intro c hc
    rcases List.mem_append.mp hc with h | h
    · rcases List.mem_append.mp h with h1 | h1
      · intro he; subst he; revert h1; decide
      · intro he; subst he; exact hsess.2.2.2 h1
    · intro he; subst he; revert h; decide
  have hp := globMatch_lit_pref hlit hm
  rw [show ("backup_".data ++ sess) ++ "_slot".data =
      "backup".data ++ '_' :: (sess ++ "_slot".data) from by
    rw [show ("backup_".data : List Char) = "backup".data ++ ['_'] from rfl]
    simp [List.append_assoc]] at hp
  rw [show snapName sess e = sess ++ '_' :: ("slot".data ++
      (intChars (Int.ofNat e.slot) ++ '_' :: (e.ts ++ ".bin".data))) from by
    rw [snapName, mk_cache_name_eq, List.append_assoc]
    rfl] at hp
  have hnp : ¬ ("backup".data <+: sess) := by
    intro hcon
    have hb := List.isPrefixOf_iff_prefix.mpr hcon
    rw [hsess.2.1] at hb
    exact absurd hb (by decide)
  exact no_align_right (by decide) hnp hp

/-- The snapshot listing of a canonical state. -/
theorem globFiles_cache_canon {sess : List Char} (hsess : sessOk sess)
    (snaps baks : List Entry) :
    globFiles (cache_pattern sess) (canonFs sess snaps baks) =
      snaps.map (snapFile sess) := by
  unfold globFiles canonFs
  rw [List.filter_append]
  rw [List.filter_eq_self.mpr (by
    intro f hf
    obtain ⟨e, _, rfl⟩ := List.mem_map.mp hf
    exact snapName_matches_cache hsess.2.2.2 e)]
  rw [List.filter_eq_nil_iff.mpr (by
    intro f hf
    obtain ⟨e, _, rfl⟩ := List.mem_map.mp hf
    rw [bakName_not_cache hsess e]
    simp)]
  rw [List.append_nil]

/-- The backup listing of a canonical state. -/
theorem globFiles_backup_canon {sess : List Char} (hsess : sessOk sess)
    (snaps baks : List Entry) :
    globFiles (backup_pattern sess) (canonFs sess snaps baks) =
      baks.map (bakFile sess) := by
  unfold globFiles canonFs
  rw [List.filter_append]
  rw [List.filter_eq_nil_iff.mpr (by
    intro f hf
    obtain ⟨e, _, rfl⟩ := List.mem_map.mp hf
    rw [show (snapFile sess e).name = snapName sess e from rfl,
      snapName_not_backup hsess e]
    simp)]
  rw [List.filter_eq_self.mpr (by
    intro f hf
    obtain ⟨e, _, rfl⟩ := List.mem_map.mp hf
    exact bakName_matches_backup hsess.2.2.2 e)]
  rw [List.nil_append]

/-- Canonical names determine slot and timestamp. -/
theorem snapName_inj {sess : List Char} {a b : Entry}
    (hsess : sessOk sess) (ha : tsOk a) (hb : tsOk b)
    (h : snapName sess a = snapName sess b) : a.slot = b.slot ∧ a.ts = b.ts := by
  have h1 : extract_slot_id_from_filename
      (mk_cache_name sess (Int.ofNat a.slot) a.ts) = some (Int.ofNat a.slot) :=
    extract_slot_mk hsess.1 (tsOk_digits ha)
  have h2 : extract_slot_id_from_filename
      (mk_cache_name sess (Int.ofNat b.slot) b.ts) = some (Int.ofNat b.slot) :=
    extract_slot_mk hsess.1 (tsOk_digits hb)
  have h3 : extract_timestamp_from_filename
      (mk_cache_name sess (Int.ofNat a.slot) a.ts) = some a.ts :=
    extract_ts_mk hsess.1 ha.1 ha.2
  have h4 : extract_timestamp_from_filename
      (mk_cache_name sess (Int.ofNat b.slot) b.ts) = some b.ts :=
    extract_ts_mk hsess.1 hb.1 hb.2
  unfold snapName at h
  rw [h] at h1 h3
  rw [h1] at h2
  rw [h3] at h4
  simp only [Option.some.injEq] at h2 h4
  exact ⟨Int.ofNat.inj h2, h4⟩

/-- A snapshot name is never a backup name. -/
theorem snapName_ne_bakName {sess : List Char} (hsess : sessOk sess)
    (a b : Entry) : snapName sess a ≠ (bakFile sess b).name := by
  intro h
  have h1 := snapName_matches_cache hsess.2.2.2 a
  rw [h, bakName_not_cache hsess b] at h1
  simp at h1

/-! ## Locating the slot marker inside canonical names -/

/-- The only occurrence of `"_slot"` in `pre ++ "_slot" ++ r` is at the
boundary, when `pre` does not contain it and `r` has no letter `l`. -/
theorem slot_occurrence_unique {pre r : List Char}
    (hs : hasSub "_slot".data pre = false)
    (hr : ∀ x ∈ r, x ≠ 'l') :
    ∀ j, "_slot".data.isPrefixOf ((pre ++ "_slot".data ++ r).drop j) = true →
      j = pre.length := by
  intro j hj
  have hfind : findSub "_slot".data (pre ++ "_slot".data ++ r) =
      some pre.length := findSub_slot_boundary hs
  obtain ⟨h1, h2⟩ := findSub_some hfind
  by_cases hlt : j < pre.length
  · rw [h2 j hlt] at hj
    exact absurd hj (by decide)
  · by_cases heq : j = pre.length
    · exact heq
    exfalso
    rw [List.append_assoc, List.drop_append_eq_append_drop,
      List.drop_eq_nil_of_le (by omega), List.nil_append] at hj
    rw [List.isPrefixOf_iff_prefix] at hj
    set k := j - pre.length with hk
    have hk1 : 1 ≤ k := by omega
    by_cases hk5 : 5 ≤ k
    · rw [List.drop_append_eq_append_drop,
        List.drop_eq_nil_of_le (by
          rw [show ("_slot".data : List Char).length = 5 from rfl]; omega),
        List.nil_append] at hj
      have hl : 'l' ∈ r.drop (k - ("_slot".data : List Char).length) :=
        hj.subset (by decide)
      exact hr 'l' (List.mem_of_mem_drop hl) rfl
    · rw [List.drop_append_eq_append_drop,
        Nat.sub_eq_zero_of_le (by
          rw [show ("_slot".data : List Char).length = 5 from rfl]; omega),
        List.drop_zero] at hj
      have hk4 : k = 1 ∨ k = 2 ∨ k = 3 ∨ k = 4 := by omega
      rcases hk4 with h | h | h | h
      · rw [h, show ("_slot".data : List Char).drop 1 = 's' :: "lot".data from rfl,
          List.cons_append,
          show ("_slot".data : List Char) = '_' :: "slot".data from rfl,
          List.cons_prefix_cons] at hj
        exact absurd hj.1 (by decide)
      · rw [h, show ("_slot".data : List Char).drop 2 = 'l' :: "ot".data from rfl,
          List.cons_append,
          show ("_slot".data : List Char) = '_' :: "slot".data from rfl,
          List.cons_prefix_cons] at hj
        exact absurd hj.1 (by decide)
      · rw [h, show ("_slot".data : List Char).drop 3 = 'o' :: "t".data from rfl,
          List.cons_append,
          show ("_slot".data : List Char) = '_' :: "slot".data from rfl,
          List.cons_prefix_cons] at hj
        exact absurd hj.1 (by decide)
      · rw [h, show ("_slot".data : List Char).drop 4 = 't' :: ([] : List Char) from rfl,
          List.cons_append,
          show ("_slot".data : List Char) = '_' :: "slot".data from rfl,
          List.cons_prefix_cons] at hj
        exact absurd hj.1 (by decide)

/-- The per-slot filter `f"_slot{n}_" in name` holds on a canonical name
exactly for that slot. -/
theorem hasSub_slotpat_iff {pre ts : List Char} {m : Nat} (n : Nat)
    (hs : hasSub "_slot".data pre = false)
    (hts : ∀ c ∈ ts, digitB c = true) :
    hasSub ("_slot".data ++ intChars (Int.ofNat n) ++ ['_'])
        (pre ++ "_slot".data ++ (natDigits m ++ '_' :: (ts ++ ".bin".data))) =
      true ↔ m = n := by
  constructor
  · intro h
    obtain ⟨j, hj⟩ := hasSub_iff.mp h
    rw [List.isPrefixOf_iff_prefix] at hj
    have hjslot : "_slot".data.isPrefixOf
        ((pre ++ "_slot".data ++ (natDigits m ++ '_' :: (ts ++ ".bin".data))).drop j)
          = true := by
      rw [List.isPrefixOf_iff_prefix]
      refine List.IsPrefix.trans ?_ hj
      rw [List.append_assoc]
      exact List.prefix_append _ _
    have hrl : ∀ x ∈ natDigits m ++ '_' :: (ts ++ ".bin".data), x ≠ 'l' := by
      have : ∀ x ∈ intChars (Int.ofNat m) ++ '_' :: (ts ++ ".bin".data),
          x ≠ 'l' := tail_no_l hts
      rw [intChars_ofNat] at this
      exact this
    have hjb := slot_occurrence_unique hs hrl j hjslot
    subst hjb
    rw [List.append_assoc pre, List.drop_left] at hj
    obtain ⟨t, ht⟩ := hj
    rw [intChars_ofNat] at ht
    have ht' : "_slot".data ++ (natDigits n ++ '_' :: t) =
        "_slot".data ++ (natDigits m ++ '_' :: (ts ++ ".bin".data)) := by
      rw [← ht]
      simp [List.append_assoc]
    have h2 := List.append_cancel_left ht'
    have hpref : natDigits n ++ '_' :: t <+:
        natDigits m ++ '_' :: (ts ++ ".bin".data) := by
      rw [h2]
    have hdm := digits_pref_digits (mem_natDigits_digitB n) (mem_natDigits_digitB m)
      hpref
    exact (natDigits_inj hdm).symm
  · intro h
    subst h
    apply hasSub_iff.mpr
    refine ⟨pre.length, ?_⟩
    rw [List.append_assoc pre, List.drop_left, List.isPrefixOf_iff_prefix,
      intChars_ofNat]
    refine ⟨ts ++ ".bin".data, ?_⟩
    simp [List.append_assoc]

/-- Specialisation to snapshot names. -/
theorem hasSub_slotpat_snap {sess : List Char} (hsess : sessOk sess)
    {e : Entry} (hts : tsOk e) (n : Nat) :
    hasSub ("_slot".data ++ intChars (Int.ofNat n) ++ ['_']) (snapName sess e) =
      true ↔ e.slot = n := by
  rw [show snapName sess e = sess ++ "_slot".data ++
      (natDigits e.slot ++ '_' :: (e.ts ++ ".bin".data)) from by
    rw [snapName, mk_cache_name_eq, intChars_ofNat]]
  exact hasSub_slotpat_iff n hsess.1 (tsOk_digits hts)

/-- Specialisation to backup names. -/
theorem hasSub_slotpat_bak {sess : List Char} (hsess : sessOk sess)
    {e : Entry} (hts : tsOk e) (n : Nat) :
    hasSub ("_slot".data ++ intChars (Int.ofNat n) ++ ['_'])
        ((bakFile sess e).name) = true ↔ e.slot = n := by
  rw [show (bakFile sess e).name = ("backup_".data ++ sess) ++ "_slot".data ++
      (natDigits e.slot ++ '_' :: (e.ts ++ ".bin".data)) from by
    show "backup_".data ++ snapName sess e = _
    rw [snapName, mk_cache_name_eq, intChars_ofNat]
    simp [List.append_assoc]]
  exact hasSub_slotpat_iff n (hasSub_slot_backup_aux hsess.1 hsess.2.2.1)
    (tsOk_digits hts)

/-! ## Generic selection lemmas -/

/-- `find?` returns the unique satisfying element. -/
theorem find?_unique {α : Type} {p : α → Bool} {l : List α} {x : α}
    (hmem : x ∈ l) (hx : p x = true)
    (huniq : ∀ y ∈ l, p y = true → y = x) : l.find? p = some x := by
  induction l with
  | nil => simp at hmem
  | cons a t ih =>
    by_cases hpa : p a = true
    · rw [List.find?_cons_of_pos _ hpa]
      rw [huniq a (by simp) hpa]
    · rw [List.find?_cons_of_neg _ hpa]
      rcases List.mem_cons.mp hmem with h | h
      · subst h; exact absurd hx hpa
      · exact ih h (fun y hy => huniq y (by simp [hy]))

/-- The head of the descending sort is the strict maximum when one
exists. -/
theorem head_sortDesc_max {l : List FsFile} {x : FsFile} (hx : x ∈ l)
    (hmax : ∀ y ∈ l, y ≠ x → y.mtime < x.mtime) :
    (sortDesc l).head? = some x := by
  unfold sortDesc
  cases hc : l.insertionSort geMt with
  | nil =>
    exfalso
    have := (List.perm_insertionSort geMt l).symm.mem_iff.mp hx
    rw [hc] at this
    simp at this
  | cons h t =>
    have hhl : h ∈ l := by
      have : h ∈ l.insertionSort geMt := by rw [hc]; simp
      exact (List.perm_insertionSort geMt l).mem_iff.mp this
    by_cases hhx : h = x
    · rw [hhx]; rfl
    exfalso
    have hlt := hmax h hhl hhx
    have hxmem : x ∈ h :: t := by
      have : x ∈ l.insertionSort geMt :=
        (List.perm_insertionSort geMt l).symm.mem_iff.mp hx
      rw [hc] at this
      exact this
    have hsorted : List.Sorted geMt (l.insertionSort geMt) :=
      List.sorted_insertionSort geMt l
    rw [hc] at hsorted
    rcases List.mem_cons.mp hxmem with hcase | hcase
    · exact hhx hcase.symm
    · have := (List.sorted_cons.mp hsorted).1 x hcase
      unfold geMt at this
      omega

/-! ## The backup cycle on canonical states -/

/-- The snapshot listing of a canonical state, newest first. -/
theorem get_cache_files_none_canon {sess : List Char} (hsess : sessOk sess)
    (snaps baks : List Entry) :
    get_cache_files sess none (canonFs sess snaps baks) =
      sortDesc (snaps.map (snapFile sess)) := by
  unfold get_cache_files
  rw [globFiles_cache_canon hsess]

/-- The default backup name of a snapshot is its canonical backup
name. -/
theorem mk_backup_name_backup (sess : List Char) (e : Entry) :
    mk_backup_name "backup".data (snapName sess e) = (bakFile sess e).name := by
  show "backup".data ++ '_' :: snapName sess e = "backup_".data ++ snapName sess e
  rw [show ("backup_".data : List Char) = "backup".data ++ ['_'] from rfl,
    List.append_assoc]
  rfl

/-- On a canonical state the cycle's group maximum is the maximal
snapshot timestamp. -/
theorem latest_canon {sess : List Char} (hsess : sessOk sess)
    {snaps : List Entry} (baks : List Entry)
    (htss : ∀ e ∈ snaps, tsOk e) {latest : List Char}
    (hmax : pyMaxStr (snaps.map (fun e => e.ts)) = some latest) :
    pyMaxStr (groupKeys (get_cache_files sess none (canonFs sess snaps baks))) =
      some latest := by
  rw [get_cache_files_none_canon hsess]
  obtain ⟨hmem, hub⟩ := pyMaxStr_spec hmax
  obtain ⟨e0, he0, hts0⟩ := List.mem_map.mp hmem
  apply pyMaxStr_eq_of_max
  · apply mem_groupKeys.mpr
    refine ⟨snapFile sess e0, ?_, ?_⟩
    · unfold sortDesc
      rw [List.mem_insertionSort]
      exact List.mem_map.mpr ⟨e0, he0, rfl⟩
    · show extract_timestamp_from_filename (snapName sess e0) = some latest
      rw [snapName, extract_ts_mk hsess.1 (htss e0 he0).1 (htss e0 he0).2, hts0]
  · intro k hk
    obtain ⟨f, hf, hfe⟩ := mem_groupKeys.mp hk
    unfold sortDesc at hf
    rw [List.mem_insertionSort] at hf
    obtain ⟨e, he, rfl⟩ := List.mem_map.mp hf
    have : extract_timestamp_from_filename (snapFile sess e).name = some e.ts := by
      show extract_timestamp_from_filename (snapName sess e) = some e.ts
      rw [snapName]
      exact extract_ts_mk hsess.1 (htss e he).1 (htss e he).2
    rw [this] at hfe
    simp only [Option.some.injEq] at hfe
    subst hfe
    exact hub e.ts (List.mem_map.mpr ⟨e, he, rfl⟩)

/-- A canonical state has snapshots whenever it has a maximal
timestamp. -/
theorem cfs_canon_ne_empty {sess : List Char} (hsess : sessOk sess)
    {snaps : List Entry} (baks : List Entry) {latest : List Char}
    (hmax : pyMaxStr (snaps.map (fun e => e.ts)) = some latest) :
    (get_cache_files sess none (canonFs sess snaps baks)).isEmpty = false := by
  obtain ⟨hmem, _⟩ := pyMaxStr_spec hmax
  obtain ⟨e0, he0, _⟩ := List.mem_map.mp hmem
  rw [get_cache_files_none_canon hsess]
  have : snapFile sess e0 ∈ sortDesc (snaps.map (snapFile sess)) := by
    unfold sortDesc
    rw [List.mem_insertionSort]
    exact List.mem_map.mpr ⟨e0, he0, rfl⟩
  cases hc : sortDesc (snaps.map (snapFile sess)) with
  | nil => rw [hc] at this; simp at this
  | cons a t => rfl

/-- Membership in the latest-group slot listing of a canonical state. -/
theorem slots_canon_mem {sess : List Char} (hsess : sessOk sess)
    {snaps : List Entry} (baks : List Entry)
    (htss : ∀ e ∈ snaps, tsOk e) {latest : List Char}
    (hmax : pyMaxStr (snaps.map (fun e => e.ts)) = some latest) {s : Int} :
    s ∈ get_slots_with_latest_timestamp sess (canonFs sess snaps baks) ↔
      ∃ e ∈ snaps, e.ts = latest ∧ Int.ofNat e.slot = s := by
  simp only [get_slots_with_latest_timestamp]
  rw [cfs_canon_ne_empty hsess baks hmax]
  rw [if_neg (by simp)]
  rw [latest_canon hsess baks htss hmax]
  unfold sortInts
  rw [List.mem_insertionSort, List.mem_dedup, List.mem_filterMap]
  constructor
  · rintro ⟨f, hf, hfs⟩
    rw [mem_groupFiles] at hf
    rw [get_cache_files_none_canon hsess] at hf
    obtain ⟨hf1, hf2⟩ := hf
    unfold sortDesc at hf1
    rw [List.mem_insertionSort] at hf1
    obtain ⟨e, he, rfl⟩ := List.mem_map.mp hf1
    have hts : extract_timestamp_from_filename (snapName sess e) = some e.ts := by
      rw [snapName]
      exact extract_ts_mk hsess.1 (htss e he).1 (htss e he).2
    have hsl : extract_slot_id_from_filename (snapName sess e) =
        some (Int.ofNat e.slot) := by
      rw [snapName]
      exact extract_slot_mk hsess.1 (tsOk_digits (htss e he))
    rw [show (snapFile sess e).name = snapName sess e from rfl] at hf2 hfs
    rw [hts] at hf2
    rw [hsl] at hfs
    simp only [Option.some.injEq] at hf2 hfs
    exact ⟨e, he, hf2, hfs⟩
  · rintro ⟨e, he, hts, hsl⟩
    refine ⟨snapFile sess e, ?_, ?_⟩
    · rw [mem_groupFiles, get_cache_files_none_canon hsess]
      constructor
      · unfold sortDesc
        rw [List.mem_insertionSort]
        exact List.mem_map.mpr ⟨e, he, rfl⟩
      · show extract_timestamp_from_filename (snapName sess e) = some latest
        rw [snapName, extract_ts_mk hsess.1 (htss e he).1 (htss e he).2, hts]
    · show extract_slot_id_from_filename (snapName sess e) = some s
      rw [snapName, extract_slot_mk hsess.1 (tsOk_digits (htss e he)), hsl]

/-- The latest-group slot listing is never longer than the snapshot
list. -/
theorem slots_canon_len {sess : List Char} (hsess : sessOk sess)
    {snaps : List Entry} (baks : List Entry)
    (htss : ∀ e ∈ snaps, tsOk e) {latest : List Char}
    (hmax : pyMaxStr (snaps.map (fun e => e.ts)) = some latest) :
    (get_slots_with_latest_timestamp sess (canonFs sess snaps baks)).length ≤
      snaps.length := by
  simp only [get_slots_with_latest_timestamp]
  rw [cfs_canon_ne_empty hsess baks hmax]
  rw [if_neg (by simp)]
  rw [latest_canon hsess baks htss hmax]
  unfold sortInts
  rw [(List.perm_insertionSort _ _).length_eq]
  calc ((groupFiles (get_cache_files sess none (canonFs sess snaps baks)) latest).filterMap
          fun f => extract_slot_id_from_filename f.name).dedup.length
      ≤ ((groupFiles (get_cache_files sess none (canonFs sess snaps baks)) latest).filterMap
          fun f => extract_slot_id_from_filename f.name).length :=
        (List.dedup_sublist _).length_le
    _ ≤ (groupFiles (get_cache_files sess none (canonFs sess snaps baks)) latest).length :=
        List.length_filterMap_le _ _
    _ ≤ (get_cache_files sess none (canonFs sess snaps baks)).length :=
        List.length_filter_le _ _
    _ = snaps.length := by
        rw [get_cache_files_none_canon hsess]
        unfold sortDesc
        rw [(List.perm_insertionSort _ _).length_eq, List.length_map]

/-- Entries of a canonical state are determined by their slot and
timestamp. -/
theorem entry_unique {snaps : List Entry}
    (hnd : (snaps.map fun e => (e.slot, e.ts)).Nodup)
    {a b : Entry} (ha : a ∈ snaps) (hb : b ∈ snaps)
    (hs : a.slot = b.slot) (ht : a.ts = b.ts) : a = b := by
  have := List.inj_on_of_nodup_map hnd ha hb (by rw [Prod.mk.injEq]; exact ⟨hs, ht⟩)
  exact this

/-- On a canonical state, the snapshot fetched for a slot of the latest
group is that slot's latest-group snapshot. -/
theorem gcft_canon {sess : List Char} (hsess : sessOk sess)
    {snaps : List Entry} (baks : List Entry)
    (htss : ∀ e ∈ snaps, tsOk e)
    (hnd : (snaps.map fun e => (e.slot, e.ts)).Nodup)
    {latest : List Char} {es : Entry} (hes : es ∈ snaps) (hts : es.ts = latest) :
    get_cache_file_for_timestamp sess (Int.ofNat es.slot) latest
        (canonFs sess snaps baks) = some (snapFile sess es) := by
  unfold get_cache_file_for_timestamp get_cache_files
  rw [globFiles_cache_canon hsess]
  apply find?_unique
  · unfold sortDesc
    rw [List.mem_insertionSort, List.mem_filter]
    constructor
    · exact List.mem_map.mpr ⟨es, hes, rfl⟩
    · exact (hasSub_slotpat_snap hsess (htss es hes) es.slot).mpr rfl
  · show (extract_timestamp_from_filename (snapName sess es) == some latest) = true
    rw [snapName, extract_ts_mk hsess.1 (htss es hes).1 (htss es hes).2, hts]
    simp
  · intro y hy hpy
    unfold sortDesc at hy
    rw [List.mem_insertionSort, List.mem_filter] at hy
    obtain ⟨hy1, hy2⟩ := hy
    obtain ⟨e, he, rfl⟩ := List.mem_map.mp hy1
    have hslot : e.slot = es.slot :=
      (hasSub_slotpat_snap hsess (htss e he) es.slot).mp hy2
    have hets : e.ts = latest := by
      rw [show (extract_timestamp_from_filename (snapFile sess e).name ==
          some latest) = true ↔
          extract_timestamp_from_filename (snapName sess e) = some latest from
        beq_iff_eq] at hpy
      rw [snapName, extract_ts_mk hsess.1 (htss e he).1 (htss e he).2] at hpy
      simpa using hpy
    rw [entry_unique hnd he hes hslot (by rw [hets, hts])]

/-- On a canonical state whose backups for a slot have a strict
newest member, that member is the slot's latest backup. -/
theorem lbfs_canon {sess : List Char} (hsess : sessOk sess)
    (snaps : List Entry) {baks : List Entry}
    (htsb : ∀ e ∈ baks, tsOk e)
    {eb : Entry} (heb : eb ∈ baks)
    (hmaxb : ∀ b ∈ baks, b.slot = eb.slot → b ≠ eb → b.mtime < eb.mtime) :
    latest_backup_for_slot sess (Int.ofNat eb.slot) (canonFs sess snaps baks) =
      some (bakFile sess eb) := by
  unfold latest_backup_for_slot
  rw [globFiles_backup_canon hsess]
  apply head_sortDesc_max
  · rw [List.mem_filter]
    constructor
    · exact List.mem_map.mpr ⟨eb, heb, rfl⟩
    · exact (hasSub_slotpat_bak hsess (htsb eb heb) eb.slot).mpr rfl
  · intro y hy hne
    rw [List.mem_filter] at hy
    obtain ⟨hy1, hy2⟩ := hy
    obtain ⟨b, hb, rfl⟩ := List.mem_map.mp hy1
    have hslot : b.slot = eb.slot :=
      (hasSub_slotpat_bak hsess (htsb b hb) eb.slot).mp hy2
    have hbne : b ≠ eb := by
      intro hcon
      subst hcon
      exact hne rfl
    exact hmaxb b hb hslot hbne

/-- Backup names decode slot and timestamp. -/
theorem bakName_eq_iff {sess : List Char} (hsess : sessOk sess)
    {a b : Entry} (ha : tsOk a) (hb : tsOk b) :
    (bakFile sess a).name = (bakFile sess b).name ↔
      a.slot = b.slot ∧ a.ts = b.ts := by
  constructor
  · intro h
    have h2 : snapName sess a = snapName sess b := List.append_cancel_left h
    exact snapName_inj hsess ha hb h2
  · rintro ⟨h1, h2⟩
    show "backup_".data ++ snapName sess a = "backup_".data ++ snapName sess b
    rw [show snapName sess a = snapName sess b from by
      unfold snapName; rw [h1, h2]]

/-- One copy-loop iteration on a canonical state: the slot's
latest-group snapshot is copied over any previous backup of the same
name. -/
theorem cbStep_backup_canon {sess : List Char} (hsess : sessOk sess)
    {snaps baksP : List Entry} {latest : List Char}
    (htss : ∀ e ∈ snaps, tsOk e) (htsb : ∀ e ∈ baksP, tsOk e)
    (hnd : (snaps.map fun e => (e.slot, e.ts)).Nodup)
    {es : Entry} (hes : es ∈ snaps) (hts : es.ts = latest) (cnt : Nat) :
    cbStep sess "backup".data latest (canonFs sess snaps baksP, cnt)
        (Int.ofNat es.slot) =
      (canonFs sess snaps
        ((baksP.filter fun b => !(b.slot == es.slot && b.ts == es.ts)) ++ [es]),
        cnt + 1) := by
  unfold cbStep
  rw [show get_cache_file_for_timestamp sess (Int.ofNat es.slot) latest
      (canonFs sess snaps baksP, cnt).1 = some (snapFile sess es) from
    gcft_canon hsess baksP htss hnd hes hts]
  have hbn : mk_backup_name "backup".data (snapFile sess es).name =
      (bakFile sess es).name := mk_backup_name_backup sess es
  dsimp only
  rw [hbn]
  have hfile : (⟨(bakFile sess es).name, (snapFile sess es).mtime,
      (snapFile sess es).content⟩ : FsFile) = bakFile sess es := rfl
  rw [hfile]
  rw [Prod.mk.injEq]
  refine ⟨?_, rfl⟩
  show (canonFs sess snaps baksP).filter
      (fun g => decide (g.name ≠ (bakFile sess es).name)) ++ [bakFile sess es] = _
  unfold canonFs
  rw [List.filter_append]
  rw [List.filter_eq_self.mpr (by
    intro f hf
    obtain ⟨e, _, rfl⟩ := List.mem_map.mp hf
    exact decide_eq_true (snapName_ne_bakName hsess e es))]
  rw [List.filter_map]
  rw [List.filter_congr (by
    intro b hb
    show decide ((bakFile sess b).name ≠ (bakFile sess es).name) =
      !(b.slot == es.slot && b.ts == es.ts)
    cases hb1 : b.slot == es.slot with
    | false =>
      simp only [Bool.false_and, Bool.not_false]
      apply decide_eq_true
      intro hcon
      have := ((bakName_eq_iff hsess (htsb b hb) (htss es hes)).mp hcon).1
      rw [this] at hb1
      simp at hb1
    | true =>
      cases hb2 : b.ts == es.ts with
      | false =>
        simp only [Bool.true_and, Bool.not_false]
        apply decide_eq_true
        intro hcon
        have := ((bakName_eq_iff hsess (htsb b hb) (htss es hes)).mp hcon).2
        rw [this] at hb2
        simp at hb2
      | true =>
        simp only [Bool.true_and, Bool.not_true]
        apply decide_eq_false
        intro hcon
        apply hcon
        exact (bakName_eq_iff hsess (htsb b hb) (htss es hes)).mpr
          ⟨eq_of_beq hb1, eq_of_beq hb2⟩)]
  rw [List.append_assoc,
    show [bakFile sess es] = List.map (bakFile sess) [es] from rfl,
    ← List.map_append]

/-- The copy loop of the default backup keeps the state canonical:
the resulting backups are the surviving old ones plus one fresh copy
per processed latest-group slot. -/
theorem cb_fold_canon {sess : List Char} (hsess : sessOk sess)
    {snaps : List Entry} {latest : List Char}
    (htss : ∀ e ∈ snaps, tsOk e)
    (hnd : (snaps.map fun e => (e.slot, e.ts)).Nodup) :
    ∀ (Q : List Int) (baksP : List Entry) (cnt : Nat),
      (∀ e ∈ baksP, tsOk e) →
      (∀ s ∈ Q, ∃ e ∈ snaps, e.ts = latest ∧ Int.ofNat e.slot = s) →
      ∃ baks' : List Entry,
        Q.foldl (cbStep sess "backup".data latest)
            (canonFs sess snaps baksP, cnt) =
          (canonFs sess snaps baks', cnt + Q.length) ∧
        (∀ e ∈ baks', tsOk e) ∧
        baks'.length ≤ baksP.length + Q.length ∧
        (∀ b ∈ baks', b ∈ baksP ∨ (b ∈ snaps ∧ b.ts = latest)) ∧
        (∀ e ∈ snaps, e.ts = latest → e ∈ baksP → e ∈ baks') ∧
        (∀ s ∈ Q, ∃ e ∈ snaps, e.ts = latest ∧ Int.ofNat e.slot = s ∧
          e ∈ baks') := by
  intro Q
  induction Q with
  | nil =>
    intro baksP cnt htsb hQ
    exact ⟨baksP, by simp, htsb, by simp, fun b hb => Or.inl hb,
      fun e _ _ he => he, by simp⟩
  | cons s Q' ih =>
    intro baksP cnt htsb hQ
    obtain ⟨es, hes, hts, hsl⟩ := hQ s (by simp)
    have hstep : cbStep sess "backup".data latest
        (canonFs sess snaps baksP, cnt) s =
        (canonFs sess snaps ((baksP.filter fun b =>
          !(b.slot == es.slot && b.ts == es.ts)) ++ [es]), cnt + 1) := by
      rw [← hsl]
      exact cbStep_backup_canon hsess htss htsb hnd hes hts cnt
    rw [List.foldl_cons, hstep]
    have htsb1 : ∀ e ∈ (baksP.filter fun b =>
        !(b.slot == es.slot && b.ts == es.ts)) ++ [es], tsOk e := by
      intro e he
      rcases List.mem_append.mp he with h | h
      · exact htsb e (List.mem_of_mem_filter h)
      · simp only [List.mem_singleton] at h
        subst h
        exact htss _ hes
    obtain ⟨baks', h1, h2, h3, h4, h5, h6⟩ :=
      ih _ (cnt + 1) htsb1 (fun t ht => hQ t (by simp [ht]))
    refine ⟨baks', ?_, h2, ?_, ?_, ?_, ?_⟩
    · rw [show cnt + (s :: Q').length = cnt + 1 + Q'.length from by
        rw [List.length_cons]; omega]
      exact h1
    · have hfl := List.length_filter_le
        (fun b => !(b.slot == es.slot && b.ts == es.ts)) baksP
      rw [List.length_append] at h3
      rw [List.length_cons]
      simp only [List.length_singleton] at h3
      omega
    · intro b hb
      rcases h4 b hb with h | h
      · rcases List.mem_append.mp h with hh | hh
        · exact Or.inl (List.mem_of_mem_filter hh)
        · simp only [List.mem_singleton] at hh
          subst hh
          exact Or.inr ⟨hes, hts⟩
      · exact Or.inr h
    · intro e he hets heP
      apply h5 e he hets
      by_cases hcase : e.slot = es.slot ∧ e.ts = es.ts
      · have heq : e = es := entry_unique hnd he hes hcase.1 hcase.2
        subst heq
        exact List.mem_append.mpr (Or.inr (by simp))
      · apply List.mem_append.mpr
        apply Or.inl
        apply List.mem_filter.mpr
        refine ⟨heP, ?_⟩
        cases hb1 : e.slot == es.slot with
        | false => simp [hb1]
        | true =>
          cases hb2 : e.ts == es.ts with
          | false => simp [hb1, hb2]
          | true =>
            exact absurd ⟨eq_of_beq hb1, eq_of_beq hb2⟩ hcase
    · intro t ht
      rcases List.mem_cons.mp ht with h | h
      · subst h
        refine ⟨es, hes, hts, hsl, ?_⟩
        apply h5 es hes hts
        exact List.mem_append.mpr (Or.inr (by simp))
      · exact h6 t h

/-- Unfolding create_backup_with_name when a latest group exists. -/
theorem create_backup_with_name_eq (base label : List Char) (fs : List FsFile)
    {lat : List Char}
    (hne : (get_slots_with_latest_timestamp base fs).isEmpty = false)
    (hlat : pyMaxStr (groupKeys (get_cache_files base none fs)) = some lat) :
    create_backup_with_name base label fs =
      (((get_slots_with_latest_timestamp base fs).foldl (cbStep base label lat)
          (fs, 0)).1,
        decide (0 < ((get_slots_with_latest_timestamp base fs).foldl
          (cbStep base label lat) (fs, 0)).2)) := by
  simp only [create_backup_with_name]
  rw [hne, if_neg (by simp), hlat]
  rfl

/-- Unfolding create_backup when a latest group exists. -/
theorem create_backup_eq (base : List Char) (maxB : Nat) (fs : List FsFile)
    {lat : List Char}
    (hne : (get_slots_with_latest_timestamp base fs).isEmpty = false)
    (hlat : pyMaxStr (groupKeys (get_cache_files base none fs)) = some lat) :
    create_backup base maxB fs =
      if (get_slots_with_latest_timestamp base fs).any
          (fun s => backup_changed_for_slot base lat s fs) then
        match create_backup_with_name base "backup".data fs with
        | (fs1, true) => ((rotate_backups base maxB fs1).1, true)
        | (fs1, false) => (fs1, false)
      else (fs, false) := by
  simp only [create_backup]
  rw [hne, if_neg (by simp), hlat]

/-- The copy counter never decreases. -/
theorem cbStep_cnt_mono (base label lat : List Char) :
    ∀ (Q : List Int) (st : List FsFile × Nat),
      st.2 ≤ (Q.foldl (cbStep base label lat) st).2 := by
  intro Q
  induction Q with
  | nil => intro st; exact Nat.le_refl _
  | cons s Q' ih =>
    intro st
    rw [List.foldl_cons]
    refine Nat.le_trans ?_ (ih (cbStep base label lat st s))
    unfold cbStep
    cases get_cache_file_for_timestamp base s lat st.1 with
    | none => exact Nat.le_refl _
    | some cf => exact Nat.le_succ _

/-- A member makes a list non-empty. -/
theorem isEmpty_false_of_mem {α : Type} {l : List α} {x : α} (h : x ∈ l) :
    l.isEmpty = false := by
  cases l with
  | nil => simp at h
  | cons a t => rfl

/-- On a canonical state with a latest group, the named backup command
reports success for every label: it copies without any change check. -/
theorem with_name_canon_succeeds {sess : List Char} (hsess : sessOk sess)
    {snaps : List Entry} (baks : List Entry)
    (htss : ∀ e ∈ snaps, tsOk e)
    (hnd : (snaps.map fun e => (e.slot, e.ts)).Nodup)
    {latest : List Char}
    (hmax : pyMaxStr (snaps.map (fun e => e.ts)) = some latest)
    (label : List Char) :
    (create_backup_with_name sess label (canonFs sess snaps baks)).2 = true := by
  obtain ⟨hmem, _⟩ := pyMaxStr_spec hmax
  obtain ⟨e0, he0, hts0⟩ := List.mem_map.mp hmem
  have hs0 : Int.ofNat e0.slot ∈
      get_slots_with_latest_timestamp sess (canonFs sess snaps baks) :=
    (slots_canon_mem hsess baks htss hmax).mpr ⟨e0, he0, hts0, rfl⟩
  have hne : (get_slots_with_latest_timestamp sess
      (canonFs sess snaps baks)).isEmpty = false := isEmpty_false_of_mem hs0
  rw [create_backup_with_name_eq sess label _ hne
    (latest_canon hsess baks htss hmax)]
  dsimp only
  cases hsl : get_slots_with_latest_timestamp sess (canonFs sess snaps baks) with
  | nil => rw [hsl] at hne; simp at hne
  | cons s0 rest =>
    rw [List.foldl_cons]
    have hs0m : s0 ∈ get_slots_with_latest_timestamp sess
        (canonFs sess snaps baks) := by rw [hsl]; simp
    obtain ⟨e1, he1, hts1, hsl1⟩ := (slots_canon_mem hsess baks htss hmax).mp hs0m
    have hstep1 : (cbStep sess label latest (canonFs sess snaps baks, 0) s0).2 = 1 := by
      unfold cbStep
      rw [show get_cache_file_for_timestamp sess s0 latest
          (canonFs sess snaps baks, 0).1 = some (snapFile sess e1) from by
        rw [← hsl1]
        exact gcft_canon hsess baks htss hnd he1 hts1]
    have hmono := cbStep_cnt_mono sess label latest rest
      (cbStep sess label latest (canonFs sess snaps baks, 0) s0)
    rw [hstep1] at hmono
    simp only [decide_eq_true_eq]
    omega

/-- One default backup cycle on a canonical state: either nothing
changed and the state is untouched, or the latest group is copied, every
latest-group snapshot now has its fresh backup, and (within the
MAX_BACKUPS capacity) rotation deletes nothing. -/
theorem create_backup_canon_cases {sess : List Char} (hsess : sessOk sess)
    {snaps baks : List Entry} (maxB : Nat)
    (htss : ∀ e ∈ snaps, tsOk e) (htsb : ∀ e ∈ baks, tsOk e)
    (hnd : (snaps.map fun e => (e.slot, e.ts)).Nodup)
    {latest : List Char}
    (hmax : pyMaxStr (snaps.map (fun e => e.ts)) = some latest)
    (hcap : baks.length + snaps.length ≤ maxB) :
    create_backup sess maxB (canonFs sess snaps baks) =
        (canonFs sess snaps baks, false) ∨
      ∃ baks1 : List Entry,
        create_backup sess maxB (canonFs sess snaps baks) =
          (canonFs sess snaps baks1, true) ∧
        (∀ e ∈ baks1, tsOk e) ∧
        (∀ b ∈ baks1, b ∈ baks ∨ (b ∈ snaps ∧ b.ts = latest)) ∧
        (∀ e ∈ snaps, e.ts = latest → e ∈ baks1) := by
  obtain ⟨hmem, _⟩ := pyMaxStr_spec hmax
  obtain ⟨e0, he0, hts0⟩ := List.mem_map.mp hmem
  have hs0 : Int.ofNat e0.slot ∈
      get_slots_with_latest_timestamp sess (canonFs sess snaps baks) :=
    (slots_canon_mem hsess baks htss hmax).mpr ⟨e0, he0, hts0, rfl⟩
  have hne : (get_slots_with_latest_timestamp sess
      (canonFs sess snaps baks)).isEmpty = false := isEmpty_false_of_mem hs0
  have hlat := latest_canon hsess baks htss hmax
  rw [create_backup_eq sess maxB _ hne hlat]
  cases hany : (get_slots_with_latest_timestamp sess
      (canonFs sess snaps baks)).any
      (fun s => backup_changed_for_slot sess latest s
        (canonFs sess snaps baks)) with
  | false =>
    rw [if_neg (by simp)]
    exact Or.inl rfl
  | true =>
    rw [if_pos rfl]
    rw [create_backup_with_name_eq sess "backup".data _ hne hlat]
    have hQ : ∀ s ∈ get_slots_with_latest_timestamp sess
        (canonFs sess snaps baks),
        ∃ e ∈ snaps, e.ts = latest ∧ Int.ofNat e.slot = s :=
      fun s hs => (slots_canon_mem hsess baks htss hmax).mp hs
    obtain ⟨baks1, hfold, htsb1, hlen1, horig1, hpres1, hfresh1⟩ :=
      cb_fold_canon hsess htss hnd
        (get_slots_with_latest_timestamp sess (canonFs sess snaps baks))
        baks 0 htsb hQ
    rw [hfold]
    dsimp only
    have hpos : 0 < (get_slots_with_latest_timestamp sess
        (canonFs sess snaps baks)).length :=
      List.length_pos.mpr (List.ne_nil_of_mem hs0)
    rw [show decide (0 < 0 + (get_slots_with_latest_timestamp sess
        (canonFs sess snaps baks)).length) = true from decide_eq_true (by omega)]
    dsimp only
    have hle : (globFiles (backup_pattern sess)
        (canonFs sess snaps baks1)).length ≤ maxB := by
      rw [globFiles_backup_canon hsess, List.length_map]
      have hsl := slots_canon_len hsess baks htss hmax
      omega
    unfold rotate_backups
    rw [rotate_files_noop hle]
    refine Or.inr ⟨baks1, rfl, htsb1, horig1, ?_⟩
    intro e he hets
    have hs : Int.ofNat e.slot ∈ get_slots_with_latest_timestamp sess
        (canonFs sess snaps baks) :=
      (slots_canon_mem hsess baks htss hmax).mpr ⟨e, he, hets, rfl⟩
    obtain ⟨e1, he1, hts1, hsl1, hmem1⟩ := hfresh1 _ hs
    have heq : e1 = e :=
      entry_unique hnd he1 he (Int.ofNat.inj hsl1) (by rw [hts1, hets])
    rw [← heq]
    exact hmem1

/-! ## Claim C4: the backup cycle is idempotent without an intervening
save; the named command copies unconditionally -/

/-- Claim C4, counterexample: a session with six latest-group snapshot
slots and `MAX_BACKUPS = 5`.  The first cycle copies six backups and
rotation immediately deletes the oldest fresh copy; the second cycle —
with no intervening save — therefore sees that slot as changed, reports
a performed backup again, and its copy stage creates a backup file that
was not in the state the second cycle started from.  So it is not true
that for every state the second of two consecutive default cycles
creates no new backup files. -/
theorem C4_counterexample :
    (let fs6 : List FsFile :=
      [⟨mk_cache_name "s".data 0 "20240101000000".data, 1, 100⟩,
       ⟨mk_cache_name "s".data 1 "20240101000000".data, 2, 101⟩,
       ⟨mk_cache_name "s".data 2 "20240101000000".data, 3, 102⟩,
       ⟨mk_cache_name "s".data 3 "20240101000000".data, 4, 103⟩,
       ⟨mk_cache_name "s".data 4 "20240101000000".data, 5, 104⟩,
       ⟨mk_cache_name "s".data 5 "20240101000000".data, 6, 105⟩];
     let fs1 := (create_backup "s".data 5 fs6).1;
     (create_backup "s".data 5 fs6).2 = true ∧
     (create_backup "s".data 5 fs1).2 = true ∧
     ((create_backup_with_name "s".data "backup".data fs1).1.any
       (fun f => !(fs1.contains f))) = true) := by
  decide

/-- Claim C4 (amended): on a canonical session state — snapshots and
backups named by the scheme for a hygienic session id, snapshots
pairwise distinct in (slot, timestamp), every pre-existing backup of a
latest-group slot strictly older than that slot's latest snapshot — and
whose backups together with the snapshots fit within MAX_BACKUPS,
running the default backup cycle (create_backup, lines 889-951) twice
with no intervening save makes the second run a no-op: it returns the
first run's state unchanged and reports that no backup was made.  The
named backup command (create_backup_with_name, lines 826-886, reached
from `backup <name>` in process_command) instead reports a performed
copy for every label, with no change check.  Outside the capacity bound
the no-op part fails (see the counterexample): rotation deletes a fresh
copy, so the next cycle redundantly re-copies. -/
theorem C4_backup_cycle (sess : List Char) (snaps baks : List Entry)
    (maxB : Nat) (latest : List Char)
    (hsess : sessOk sess)
    (htss : ∀ e ∈ snaps, tsOk e) (htsb : ∀ e ∈ baks, tsOk e)
    (hnd : (snaps.map fun e => (e.slot, e.ts)).Nodup)
    (hmax : pyMaxStr (snaps.map (fun e => e.ts)) = some latest)
    (hmt : ∀ b ∈ baks, ∀ c ∈ snaps, c.ts = latest → b.slot = c.slot →
      b.mtime < c.mtime)
    (hcap : baks.length + snaps.length ≤ maxB) :
    create_backup sess maxB
        ((create_backup sess maxB (canonFs sess snaps baks)).1) =
      ((create_backup sess maxB (canonFs sess snaps baks)).1, false) ∧
    ∀ label, (create_backup_with_name sess label
        (canonFs sess snaps baks)).2 = true := by
  refine ⟨?_, with_name_canon_succeeds hsess baks htss hnd hmax⟩
  rcases create_backup_canon_cases hsess maxB htss htsb hnd hmax hcap with
    h | ⟨baks1, h, htsb1, horig, hfresh⟩
  · rw [h]
    dsimp only
    exact h
  · rw [h]
    dsimp only
    obtain ⟨hmem, _⟩ := pyMaxStr_spec hmax
    obtain ⟨e0, he0, hts0⟩ := List.mem_map.mp hmem
    have hne1 : (get_slots_with_latest_timestamp sess
        (canonFs sess snaps baks1)).isEmpty = false :=
      isEmpty_false_of_mem
        ((slots_canon_mem hsess baks1 htss hmax).mpr ⟨e0, he0, hts0, rfl⟩)
    rw [create_backup_eq sess maxB _ hne1 (latest_canon hsess baks1 htss hmax)]
    rw [show (get_slots_with_latest_timestamp sess
        (canonFs sess snaps baks1)).any
        (fun s => backup_changed_for_slot sess latest s
          (canonFs sess snaps baks1)) = false from ?hany]
    · rw [if_neg (by simp)]
    case hany =>
      rw [List.any_eq_false]
      intro s hs
      obtain ⟨e, he, hets, hsl⟩ :=
        (slots_canon_mem hsess baks1 htss hmax).mp hs
      subst hsl
      unfold backup_changed_for_slot
      rw [gcft_canon hsess baks1 htss hnd he hets]
      have hebk : e ∈ baks1 := hfresh e he hets
      rw [lbfs_canon hsess snaps htsb1 hebk ?hmaxb]
      · dsimp only
        simp [bakFile, snapFile]
      case hmaxb =>
        intro b hb hbs hbne
        rcases horig b hb with hB | hS
        · exact hmt b hB e he hets hbs
        · exact absurd (entry_unique hnd hS.1 he hbs (by rw [hS.2, hets])) hbne

/-- Concrete instance of `C4_backup_cycle`: two latest-group snapshot
slots, no prior backups, `MAX_BACKUPS = 5`: the second cycle is a no-op
while the named command still reports a copy. -/
theorem C4_backup_cycle_witness :
    (sessOk "s".data ∧
     (∀ e ∈ [(⟨0, "20240101000000".data, 10, 100⟩ : Entry),
        ⟨1, "20240101000000".data, 11, 101⟩], tsOk e) ∧
     pyMaxStr (([(⟨0, "20240101000000".data, 10, 100⟩ : Entry),
        ⟨1, "20240101000000".data, 11, 101⟩]).map (fun e => e.ts)) =
       some "20240101000000".data) ∧
    (create_backup "s".data 5
        ((create_backup "s".data 5 (canonFs "s".data
          [⟨0, "20240101000000".data, 10, 100⟩,
           ⟨1, "20240101000000".data, 11, 101⟩] [])).1) =
      ((create_backup "s".data 5 (canonFs "s".data
          [⟨0, "20240101000000".data, 10, 100⟩,
           ⟨1, "20240101000000".data, 11, 101⟩] [])).1, false)) ∧
    (create_backup_with_name "s".data "note".data (canonFs "s".data
        [⟨0, "20240101000000".data, 10, 100⟩,
         ⟨1, "20240101000000".data, 11, 101⟩] [])).2 = true :=
  ⟨⟨by decide, by decide, by decide⟩,
    (C4_backup_cycle "s".data
      [⟨0, "20240101000000".data, 10, 100⟩,
       ⟨1, "20240101000000".data, 11, 101⟩] [] 5 "20240101000000".data
      (by decide) (by decide) (by decide) (by decide) (by decide)
      (by decide) (by decide)).1,
    (C4_backup_cycle "s".data
      [⟨0, "20240101000000".data, 10, 100⟩,
       ⟨1, "20240101000000".data, 11, 101⟩] [] 5 "20240101000000".data
      (by decide) (by decide) (by decide) (by decide) (by decide)
      (by decide) (by decide)).2 "note".data⟩

end KV
